import Mathlib

/-!
Verification of the COMPASS core: the windowed memoized chunk classifier,
the scan orchestrator, the jurisdiction verification graph compilers, and
the water-rights text collection helpers.

The classifier (`ParseChunksWithMemory.parse_from_ind`), the scan
orchestrator (`parse_by_chunks`), the graph compilers
(`setup_graph_correct_jurisdiction_type`,
`setup_graph_correct_jurisdiction_from_url`) and the `Jurisdiction` value
live in `compass/validation/content.py`, `compass/validation/graphs.py`
and `compass/utilities/location.py`, which are not part of the provided
sources (only their unit tests are); those parts are modelled from the
specification and cross-checked against the expectations recorded in
`tests/python/unit/validation/`.  `WaterRightsHeuristic.check`,
`_store_chunk` and `WaterRightsTextCollector.relevant_text` are embedded
directly from `compass/extraction/water/ordinance.py`.
-/

namespace Compass


/-! ### Memory: one mapping per chunk index, from question key to answer -/

/-- One per-chunk mapping from question key to resolved boolean answer. -/
abbrev MemEntry := List (String × Bool)

/-- The classifier memory: one mapping per chunk index. -/
abbrev Mem := List MemEntry

/-- Fresh memory for `n` chunks: every per-chunk mapping is empty. -/
def initMem (n : Nat) : Mem := List.replicate n []

/-- Look up the resolved answer for `key` at chunk index `p`. -/
def memLookup (memory : Mem) (p : Nat) (key : String) : Option Bool :=
  (memory.getD p []).lookup key

/-- Record the answer `v` for `key` at chunk index `p`. -/
def memStore (memory : Mem) (p : Nat) (key : String) (v : Bool) : Mem :=
  memory.set p ((key, v) :: memory.getD p [])

/-- Modelled from the spec: the *active window* for a query at `ind` with
recall size `num_to_recall` is the contiguous index range
`[max(0, ind - num_to_recall + 1), ind]`. -/
def activeWindow (num_to_recall ind : Nat) : List Nat :=
  List.range' (ind + 1 - num_to_recall) (min (ind + 1) num_to_recall)

/-- One window position step of the classifier: if `key` is unresolved at
position `p`, invoke the judge on that chunk and store the result,
recording the `(p, key)` judge invocation in the call trace. -/
def resolveStep [Inhabited α] (judge : String → α → Bool) (text_chunks : List α)
    (key : String) (acc : Mem × List (Nat × String)) (p : Nat) :
    Mem × List (Nat × String) :=
  match memLookup acc.1 p key with
  | some _ => acc
  | none =>
      (memStore acc.1 p key (judge key (text_chunks.getD p default)),
        acc.2 ++ [(p, key)])

/-- Modelled from the spec: `ParseChunksWithMemory.parse_from_ind`
(`compass/validation/content.py`, absent from the sources).  For every
position `p` in the active window, if `memory[p]` lacks `key`, invoke
`judge(key, chunk[p])` exactly once and store the result; return the
logical OR of `memory[p][key]` over the window.  The judge is modelled as
a pure function; the returned list records the `(index, key)` pairs passed
to the judge, in order. -/
def parse_from_ind [Inhabited α] (text_chunks : List α) (num_to_recall : Nat)
    (memory : Mem) (ind : Nat) (key : String) (judge : String → α → Bool) :
    Bool × Mem × List (Nat × String) :=
  let ps := activeWindow num_to_recall ind
  let res := ps.foldl (resolveStep judge text_chunks key) (memory, [])
  (ps.any (fun p => (memLookup res.1 p key).getD false), res.1, res.2)

/-- Run a sequence of `parse_from_ind` queries (pairs of index and key) on
one memory instance, returning the final memory, the list of query
outcomes, and the concatenated judge-call trace. -/
def runQueries [Inhabited α] (text_chunks : List α) (num_to_recall : Nat)
    (judge : String → α → Bool) :
    Mem → List (Nat × String) → Mem × List Bool × List (Nat × String)
  | memory, [] => (memory, [], [])
  | memory, (ind, key) :: qs =>
      let r := parse_from_ind text_chunks num_to_recall memory ind key judge
      let rest := runQueries text_chunks num_to_recall judge r.2.1 qs
      (rest.1, r.1 :: rest.2.1, r.2.2 ++ rest.2.2)

/-- Invariant tying a judge-call trace to the memory: the trace has no
duplicate `(index, key)` pair, and every pair ever judged is resolved in
memory. -/
def CallInv (memory : Mem) (cs : List (Nat × String)) : Prop :=
  cs.Nodup ∧ ∀ pr ∈ cs, (memLookup memory pr.1 pr.2).isSome

/-! ### The spec's concrete classifier scenario: 7 chunks, recall size 3,
judge true only on chunk value 0 -/

/-- Chunks of the spec's concrete scenario. -/
def scenarioChunks : List Nat := [0, 1, 2, 3, 4, 5, 6]

/-- Judge of the spec's concrete scenario: true only on chunk value 0. -/
def scenarioJudge : String → Nat → Bool := fun _ c => c == 0

/-- Query sequence of the spec's concrete scenario. -/
def scenarioQueries : List (Nat × String) := [(0, "k"), (2, "k"), (6, "k")]

/-! ### Scan orchestrator -/

/-- Observable outcome of one document scan: the document-level verdict,
how many chunks were examined, the final classifier memory, the chunk
indices submitted to the heuristic, the sequence of (index, window
result) pairs returned by the classifier, and the judge-call trace. -/
structure ScanResult where
  verdict : Bool
  examined : Nat
  memory : Mem
  heurChecked : List Nat
  resolved : List (Nat × Bool)
  trace : List (Nat × String)
deriving Repr, DecidableEq

/-- Modelled from the spec: the loop of `parse_by_chunks`
(`compass/validation/content.py`, absent from the sources).  Iterates
chunk indices upward; a chunk rejected by the heuristic is skipped
without consulting the classifier; a positive window result concludes the
scan positively at once; the scan concludes negative when the chunk
sequence is exhausted or at least `min_chunks_to_process` chunks have
been examined without a positive result.  Chunks skipped by the heuristic
count toward the examined total (the spec leaves this interplay open; the
model fixes it this way). -/
def parse_by_chunks_go [Inhabited α] (text_chunks : List α)
    (num_to_recall : Nat) (heuristic : α → Bool) (key : String)
    (judge : String → α → Bool) (min_chunks_to_process : Nat) :
    List α → Nat → Nat → Mem → List Nat → List (Nat × Bool) →
      List (Nat × String) → ScanResult
  | [], _, examined, memory, hc, rs, tr =>
      ⟨false, examined, memory, hc, rs, tr⟩
  | chunk :: rest, ind, examined, memory, hc, rs, tr =>
      if min_chunks_to_process ≤ examined then
        ⟨false, examined, memory, hc, rs, tr⟩
      else if heuristic chunk then
        let r := parse_from_ind text_chunks num_to_recall memory ind key
          judge
        if r.1 then
          ⟨true, examined + 1, r.2.1, hc ++ [ind], rs ++ [(ind, true)],
            tr ++ r.2.2⟩
        else
          parse_by_chunks_go text_chunks num_to_recall heuristic key judge
            min_chunks_to_process rest (ind + 1) (examined + 1) r.2.1
            (hc ++ [ind]) (rs ++ [(ind, false)]) (tr ++ r.2.2)
      else
        parse_by_chunks_go text_chunks num_to_recall heuristic key judge
          min_chunks_to_process rest (ind + 1) (examined + 1) memory
          (hc ++ [ind]) rs tr

/-- Modelled from the spec: `parse_by_chunks` — scan the chunk sequence
from index 0 with a fresh memory. -/
def parse_by_chunks [Inhabited α] (text_chunks : List α)
    (num_to_recall : Nat) (heuristic : α → Bool) (key : String)
    (judge : String → α → Bool) (min_chunks_to_process : Nat) :
    ScanResult :=
  parse_by_chunks_go text_chunks num_to_recall heuristic key judge
    min_chunks_to_process text_chunks 0 0 (initMem text_chunks.length)
    [] [] []

/-! ### Jurisdiction model -/

/-- The three tiers of the jurisdiction hierarchy. -/
inductive Tier
  | state
  | county
  | subdivision
deriving DecidableEq, Repr

/-- Name of a tier as used in node identifiers. -/
def tierName : Tier → String
  | .state => "state"
  | .county => "county"
  | .subdivision => "subdivision"

/-- Modelled from the spec: the tier a jurisdiction type declares
(state; county/parish/borough; city/town/township/unincorporated
area/gore). -/
def tierOfType (t : String) : Option Tier :=
  if t == "state" then some .state
  else if t == "county" || t == "parish" || t == "borough" then
    some .county
  else if t == "city" || t == "town" || t == "township" ||
      t == "unincorporated area" || t == "gore" then
    some .subdivision
  else none

/-- Modelled from the spec: `Jurisdiction`
(`compass/utilities/location.py`, absent from the sources) — an
immutable value with a type, a state name, an optional county name and an
optional subdivision name. -/
structure Jurisdiction where
  type_ : String
  state : String
  county : Option String := none
  subdivision_name : Option String := none
deriving DecidableEq, Repr

/-- Modelled from the spec: whether the tier fields are consistent with
the declared type (the compiler's precondition). -/
def Jurisdiction.wfb (j : Jurisdiction) : Bool :=
  match tierOfType j.type_ with
  | some .state => j.county.isNone && j.subdivision_name.isNone
  | some .county => j.county.isSome && j.subdivision_name.isNone
  | some .subdivision => j.subdivision_name.isSome
  | none => false

/-- Capitalised label of the county-level unit for a jurisdiction type. -/
def countyLabel (t : String) : String :=
  if t == "parish" then "Parish"
  else if t == "borough" then "Borough"
  else "County"

/-- Modelled from the spec: the grammatically bare county phrase, e.g.
"Jefferson County". -/
def Jurisdiction.full_county_phrase (j : Jurisdiction) : String :=
  j.county.getD "" ++ " " ++ countyLabel j.type_

/-- Modelled from the spec: the subdivision phrase used with a definite
article, e.g. "town of Golden"; "gore"-like places carry a proper-noun
style name instead. -/
def Jurisdiction.full_subdivision_phrase (j : Jurisdiction) : String :=
  if j.type_ == "gore" then j.subdivision_name.getD "" ++ " Gore"
  else j.type_ ++ " of " ++ j.subdivision_name.getD ""

/-- How a URL prompt mentions the subdivision: with a definite article for
"city of X"-style phrases, bare for proper-noun style names. -/
def Jurisdiction.subdivision_mention (j : Jurisdiction) : String :=
  if j.type_ == "gore" then j.full_subdivision_phrase
  else "the " ++ j.full_subdivision_phrase

/-- Modelled from the spec: the jurisdiction's full display name. -/
def Jurisdiction.full_name (j : Jurisdiction) : String :=
  match tierOfType j.type_ with
  | some .state => j.state
  | some .county => j.full_county_phrase ++ ", " ++ j.state
  | some .subdivision => j.full_subdivision_phrase ++ ", " ++ j.state
  | none => j.state

/-- The tiers present in the jurisdiction's lineage, outermost first. -/
def lineage (j : Jurisdiction) : List Tier :=
  [Tier.state] ++ (if j.county.isSome then [Tier.county] else []) ++
    (if j.subdivision_name.isSome then [Tier.subdivision] else [])

/-- The jurisdiction's own tier: the innermost tier of its lineage. -/
def ownTier (j : Jurisdiction) : Tier :=
  (lineage j).getLastD Tier.state

/-! ### Verification graphs -/

/-- Outgoing-edge shape of a graph node: the terminal node has no
outgoing edge, other nodes have exactly one unconditional edge or exactly
two YES/NO edges. -/
inductive EdgeKind
  | terminal
  | unconditional (next : String)
  | branch (yes no : String)
deriving DecidableEq, Repr

/-- A verification graph node: identifier, natural-language prompt,
outgoing edges. -/
structure GNode where
  id : String
  prompt : String
  edge : EdgeKind
deriving DecidableEq, Repr

/-- A verification graph as an ordered node list. -/
abbrev Graph := List GNode

/-- Identifiers of the nodes of a graph. -/
def graphNodeIds (g : Graph) : List String := g.map (·.id)

/-- Find a node by identifier. -/
def findNode (g : Graph) (i : String) : Option GNode :=
  g.find? (fun n => n.id == i)

/-- The directed edge pairs of a graph. -/
def graphEdges (g : Graph) : List (String × String) :=
  (g.map (fun n =>
    match n.edge with
    | .terminal => []
    | .unconditional nxt => [(n.id, nxt)]
    | .branch yes no => [(n.id, yes), (n.id, no)])).flatten

/-- Identifier of a tier's `is_<tier>` node. -/
def isNodeId (t : Tier) : String := "is_" ++ tierName t

/-- Identifier of a tier's `has_<tier>_name` node. -/
def hasNameNodeId (t : Tier) : String := "has_" ++ tierName t ++ "_name"

/-- Modelled from the spec: the content-graph prompt of a tier's
`is_<tier>` node, obeying the phrasing rule (state as "<State> state",
county as the bare phrase, subdivision with a definite article). -/
def tierPrompt (j : Jurisdiction) : Tier → String
  | .state =>
      "Does this text apply to " ++ j.state ++
        " state as a whole, rather than a smaller jurisdiction?"
  | .county =>
      "Is this text specifically about " ++ j.full_county_phrase ++
        ", rather than some other jurisdiction?"
  | .subdivision =>
      "Does the text apply specifically to the " ++
        j.full_subdivision_phrase ++
        ", rather than some other jurisdiction?"

/-- Modelled from the spec: prompt of the `has_<tier>_name` node that
confirms the jurisdiction's own proper name. -/
def hasTierNamePrompt (j : Jurisdiction) : Tier → String
  | .state => "Does the text mention " ++ j.state ++ " by name?"
  | .county =>
      "Does the text mention " ++ j.full_county_phrase ++ " by name?"
  | .subdivision =>
      "Does the text mention the " ++ j.full_subdivision_phrase ++
        " by name?"

/-- Modelled from the spec: the content graph's `init` node carries
context only. -/
def contentInitPrompt (j : Jurisdiction) : String :=
  "The text below is from a legal document for a jurisdiction in " ++
    j.state ++ " state."

/-- Modelled from the spec: prompt of the generic `has_name` node. -/
def hasNamePrompt (_j : Jurisdiction) : String :=
  "Does the text mention a jurisdiction name?"

/-- Modelled from the spec: the content graph's terminal prompt
aggregates the confirmed facts for the full display name. -/
def contentFinalPrompt (j : Jurisdiction) : String :=
  "Based on the confirmed facts, does this document pertain to " ++
    j.full_name ++ "? Respond with the composite verdict in JSON."

/-- Modelled from the spec: the chain of `is_<tier>` nodes of the content
graph; every tier strictly above the jurisdiction's own tier routes YES
to terminal and NO to the next tier, the own tier routes YES to its
name-check node and NO to terminal. -/
def contentChain (j : Jurisdiction) : List Tier → List GNode
  | [] => []
  | [t] => [⟨isNodeId t, tierPrompt j t, .branch (hasNameNodeId t) "final"⟩]
  | t :: t2 :: rest =>
      ⟨isNodeId t, tierPrompt j t, .branch "final" (isNodeId t2)⟩ ::
        contentChain j (t2 :: rest)

/-- Modelled from the spec: `setup_graph_correct_jurisdiction_type`
(`compass/validation/graphs.py`, absent from the sources) — compile the
content verification graph of a jurisdiction. -/
def setup_graph_correct_jurisdiction_type (j : Jurisdiction) : Graph :=
  ⟨"init", contentInitPrompt j, .unconditional "has_name"⟩ ::
    ⟨"has_name", hasNamePrompt j, .unconditional (isNodeId Tier.state)⟩ ::
    contentChain j (lineage j) ++
    [⟨hasNameNodeId (ownTier j), hasTierNamePrompt j (ownTier j),
        .unconditional "final"⟩,
      ⟨"final", contentFinalPrompt j, .terminal⟩]

/-- Modelled from the spec: the URL graph's `init` prompt carries the
state context. -/
def urlInitPrompt (j : Jurisdiction) : String :=
  "This URL should belong to a government website for " ++ j.state ++
    " state."

/-- Modelled from the spec: prompt of the URL graph's `mentions_county`
node, using the bare county phrase. -/
def urlCountyPrompt (j : Jurisdiction) : String :=
  "Does this URL mention " ++ j.full_county_phrase ++ "?"

/-- Modelled from the spec: prompt of the URL graph's `mentions_city`
node. -/
def urlCityPrompt (j : Jurisdiction) : String :=
  "Does the URL mention " ++ j.subdivision_mention ++ "?"

/-- Modelled from the spec: the URL graph's terminal prompt aggregates
one boolean per tier actually checked. -/
def urlFinalPrompt (j : Jurisdiction) : String :=
  "Return JSON. Set correct_state if this URL is for " ++ j.state ++
    " state." ++
    (match j.county with
     | some _ =>
         " Set correct_county if this URL mentions " ++
           j.full_county_phrase ++ "."
     | none => "") ++
    (match j.subdivision_name with
     | some _ =>
         " Set correct_" ++ j.type_ ++ " if this URL mentions " ++
           j.full_subdivision_phrase ++ "."
     | none => "")

/-- The identifier/prompt pairs of the URL graph's middle nodes, one per
tier present in the lineage below state. -/
def urlMidSpecs (j : Jurisdiction) : List (String × String) :=
  (match j.county with
   | some _ => [("mentions_county", urlCountyPrompt j)]
   | none => []) ++
    (match j.subdivision_name with
     | some _ => [("mentions_city", urlCityPrompt j)]
     | none => [])

/-- Link a list of middle nodes linearly, each one unconditionally to the
next, the last one unconditionally to the terminal. -/
def linkChain : List (String × String) → List GNode
  | [] => []
  | [(i, p)] => [⟨i, p, .unconditional "final"⟩]
  | (i, p) :: (i2, p2) :: rest =>
      ⟨i, p, .unconditional i2⟩ :: linkChain ((i2, p2) :: rest)

/-- Modelled from the spec: `setup_graph_correct_jurisdiction_from_url`
(`compass/validation/graphs.py`, absent from the sources) — compile the
strictly linear URL verification graph of a jurisdiction. -/
def setup_graph_correct_jurisdiction_from_url (j : Jurisdiction) : Graph :=
  ⟨"init", urlInitPrompt j,
      .unconditional
        (match urlMidSpecs j with
         | [] => "final"
         | (i, _) :: _ => i)⟩ ::
    linkChain (urlMidSpecs j) ++
    [⟨"final", urlFinalPrompt j, .terminal⟩]

/-! ### Substring checking for the prompt phrasing rule -/

/-- Whether `needle` occurs as a contiguous sublist of `hay`. -/
def listContains [BEq α] (needle : List α) : List α → Bool
  | [] => needle.isEmpty
  | c :: t => needle.isPrefixOf (c :: t) || listContains needle t

/-- Whether `needle` occurs as a substring of `hay`. -/
def containsSub (hay needle : String) : Bool :=
  listContains needle.data hay.data

/-- Lower-case code point of a character (ASCII case folding). -/
def lowerCode (c : Char) : Nat :=
  let n := c.toNat
  if 65 ≤ n && n ≤ 90 then n + 32 else n

/-- Whether `needle` occurs as a substring of `hay`, ASCII
case-insensitively. -/
def containsSubCI (hay needle : String) : Bool :=
  listContains (needle.data.map lowerCode) (hay.data.map lowerCode)

/-- Name cleanliness for the county phrasing rule: the name neither
contains the word "the " nor ends in "the". -/
def noThe (s : String) : Bool :=
  !(containsSub s "the ") && !(("the".data).isSuffixOf s.data)

/-- Name cleanliness for the state phrasing rule, ASCII
case-insensitively. -/
def noTheCI (s : String) : Bool :=
  !(containsSubCI s "the ") &&
    !(("the".data.map lowerCode).isSuffixOf (s.data.map lowerCode))

/-! ### The prompt phrasing rule -/

/-- The decidable prompt-phrasing checklist for one jurisdiction:
state-tier prompts contain "<State> state" and never "the state of"
(case-insensitively), county-tier prompts contain the bare county phrase
and never that phrase preceded by "the", and the subdivision branching
prompt embeds the subdivision phrase with a definite article. -/
def c7ok (j : Jurisdiction) : Bool :=
  let stOK := fun (s : String) =>
    containsSub s (j.state ++ " state") && !(containsSubCI s "the state of")
  let coOK := fun (s : String) =>
    containsSub s j.full_county_phrase &&
      !(containsSub s ("the " ++ j.full_county_phrase))
  stOK (tierPrompt j .state) && stOK (urlInitPrompt j) &&
    stOK (urlFinalPrompt j) &&
    (j.county.isNone ||
      (coOK (tierPrompt j .county) && coOK (urlCountyPrompt j) &&
        coOK (urlFinalPrompt j))) &&
    (j.subdivision_name.isNone ||
      containsSub (tierPrompt j .subdivision)
        ("the " ++ j.full_subdivision_phrase))

/-- The jurisdictions exercised by the graph unit tests. -/
def testJurisdictions : List Jurisdiction :=
  [⟨"state", "New York", none, none⟩,
    ⟨"county", "New York", some "Test", none⟩,
    ⟨"parish", "New York", some "Test", none⟩,
    ⟨"city", "New York", none, some "test"⟩,
    ⟨"city", "Colorado", some "Jefferson", some "Golden"⟩,
    ⟨"gore", "Vermont", none, some "Buels"⟩]

/-! ### Water-rights text collection
(`compass/extraction/water/ordinance.py`) -/

/-- Embedded from `compass/extraction/water/ordinance.py`:
`WaterRightsHeuristic` is the no-op heuristic. -/
structure WaterRightsHeuristic where

/-- Embedded from `compass/extraction/water/ordinance.py`:
`WaterRightsHeuristic.check(self, *__, **___)` ignores every positional
and keyword argument and returns `True`. -/
def WaterRightsHeuristic.check (_self : WaterRightsHeuristic)
    (_args : List α) (_kwargs : List (String × β)) : Bool :=
  true

/-- The in-bounds chunk index reached from `chunk_ind` by the `offset`
numbered `k` in `_store_chunk`'s loop (`offset = 1 - num_to_recall + k`),
or `none` when the loop's bounds check skips it. -/
def grabIndex (num_to_recall : Nat) (text_chunks_len : Nat)
    (chunk_ind k : Nat) : Option Nat :=
  if (chunk_ind : Int) + (1 - (num_to_recall : Int) + k) < 0 ||
      (text_chunks_len : Int) ≤
        (chunk_ind : Int) + (1 - (num_to_recall : Int) + k) then none
  else some ((chunk_ind : Int) + (1 - (num_to_recall : Int) + k)).toNat

/-- One iteration of `_store_chunk`'s loop: grab the neighbor index,
skip it when out of bounds, and `setdefault` it into the store. -/
def storeStep (num_to_recall : Nat) (text_chunks : List String)
    (chunk_ind : Nat) (store : List (Nat × String)) (k : Nat) :
    List (Nat × String) :=
  match grabIndex num_to_recall text_chunks.length chunk_ind k with
  | none => store
  | some ind_to_grab =>
      match store.lookup ind_to_grab with
      | some _ => store
      | none => store ++ [(ind_to_grab, text_chunks.getD ind_to_grab "")]

/-- Embedded from `compass/extraction/water/ordinance.py`:
`_store_chunk(parser, chunk_ind, store)` — for each
`offset in range(1 - parser.num_to_recall, 2)`, store the in-bounds
neighbor `chunk_ind + offset` into `store` unless already present. -/
def _store_chunk (num_to_recall : Nat) (text_chunks : List String)
    (chunk_ind : Nat) (store : List (Nat × String)) :
    List (Nat × String) :=
  (List.range (num_to_recall + 1)).foldl
    (storeStep num_to_recall text_chunks chunk_ind) store

/-- Embedded from `compass/extraction/water/ordinance.py`:
`WaterRightsTextCollector.relevant_text` — the empty string when no chunk
was stored, otherwise the stored chunks in ascending index order, merged
by `merge_overlapping_texts` (an external collaborator, abstracted as
`merge`). -/
def relevant_text (merge : List String → String)
    (chunks_store : List (Nat × String)) : String :=
  if chunks_store.isEmpty then ""
  else
    merge ((List.insertionSort (· ≤ ·) (chunks_store.map Prod.fst)).map
      (fun ind => (chunks_store.lookup ind).getD ""))

/-- Embedded from `compass/extraction/water/ordinance.py`:
`WaterRightsTextCollector.check_chunk` — resolve the chunk at `ind`
through the classifier under the `contains_ord_info` key and store it
with its neighbors when relevant. -/
def check_chunk (text_chunks : List String) (num_to_recall : Nat)
    (memory : Mem) (judge : String → String → Bool) (ind : Nat)
    (store : List (Nat × String)) :
    Bool × Mem × List (Nat × String) :=
  let r := parse_from_ind text_chunks num_to_recall memory ind
    "contains_ord_info" judge
  (r.1, r.2.1,
    if r.1 then _store_chunk num_to_recall text_chunks ind store
    else store)

/-! ### Theorems -/

/-! ### Basic lemmas about the memory operations -/

theorem memStore_length (memory : Mem) (p : Nat) (key : String) (v : Bool) :
    (memStore memory p key v).length = memory.length := by
  simp [memStore]

theorem memLookup_memStore_self (memory : Mem) (p : Nat) (key : String)
    (v : Bool) (hp : p < memory.length) :
    memLookup (memStore memory p key v) p key = some v := by
  simp [memLookup, memStore, List.getD_eq_getElem?_getD, List.getElem?_set_self hp,
    List.lookup_cons]

theorem memStore_oob (memory : Mem) (p : Nat) (key : String) (v : Bool)
    (hp : memory.length ≤ p) : memStore memory p key v = memory := by
  simp [memStore, List.set_eq_of_length_le hp]

theorem memLookup_memStore_ne_pos (memory : Mem) {p q : Nat} (key key' : String)
    (v : Bool) (hpq : p ≠ q) :
    memLookup (memStore memory p key v) q key' = memLookup memory q key' := by
  simp [memLookup, memStore, List.getD_eq_getElem?_getD, List.getElem?_set_ne hpq]

theorem memLookup_memStore_ne_key (memory : Mem) (p : Nat) {key key' : String}
    (v : Bool) (hk : key' ≠ key) :
    memLookup (memStore memory p key v) p key' = memLookup memory p key' := by
  by_cases hp : p < memory.length
  · have hb : (key' == key) = false := beq_eq_false_iff_ne.mpr hk
    simp [memLookup, memStore, List.getD_eq_getElem?_getD,
      List.getElem?_set_self hp, List.lookup_cons, hb]
  · rw [memStore_oob memory p key v (Nat.le_of_not_lt hp)]

/-- Anything other than position `p` with key `key` is untouched by a store
at `(p, key)`. -/
theorem memLookup_memStore_other (memory : Mem) {p q : Nat} {key key' : String}
    (v : Bool) (h : ¬(q = p ∧ key' = key)) :
    memLookup (memStore memory p key v) q key' = memLookup memory q key' := by
  by_cases hpq : p = q
  · subst hpq
    have hk : key' ≠ key := by
      intro hkk
      exact h ⟨rfl, hkk⟩
    exact memLookup_memStore_ne_key memory p v hk
  · exact memLookup_memStore_ne_pos memory key key' v hpq

/-! ### Lemmas about one classifier window pass -/

theorem mem_activeWindow {num_to_recall ind p : Nat} :
    p ∈ activeWindow num_to_recall ind ↔
      ind + 1 - num_to_recall ≤ p ∧ p < ind + 1 := by
  unfold activeWindow
  rw [List.mem_range'_1]
  constructor
  · rintro ⟨h1, h2⟩
    exact ⟨h1, by omega⟩
  · rintro ⟨h1, h2⟩
    exact ⟨h1, by omega⟩

theorem activeWindow_le {num_to_recall ind p : Nat}
    (h : p ∈ activeWindow num_to_recall ind) : p ≤ ind := by
  have := mem_activeWindow.mp h
  omega

section FoldLemmas

variable {α : Type _} [Inhabited α] (judge : String → α → Bool)

variable (text_chunks : List α) (key : String)

theorem fold_resolveStep_length (ps : List Nat) :
    ∀ (memory : Mem) (cs : List (Nat × String)),
      (ps.foldl (resolveStep judge text_chunks key) (memory, cs)).1.length =
        memory.length := by
  induction ps with
  | nil => intro memory cs; rfl
  | cons p ps ih =>
      intro memory cs
      simp only [List.foldl_cons]
      cases h : memLookup memory p key with
      | some v => simpa [resolveStep, h] using ih memory cs
      | none =>
          simp only [resolveStep, h]
          rw [ih]
          exact memStore_length memory p key _

theorem fold_resolveStep_monotone (ps : List Nat) :
    ∀ (memory : Mem) (cs : List (Nat × String)) (q : Nat) (k' : String)
      (v : Bool), memLookup memory q k' = some v →
      memLookup (ps.foldl (resolveStep judge text_chunks key)
        (memory, cs)).1 q k' = some v := by
  induction ps with
  | nil => intro memory cs q k' v h; exact h
  | cons p ps ih =>
      intro memory cs q k' v h
      simp only [List.foldl_cons]
      cases hl : memLookup memory p key with
      | some w => simpa [resolveStep, hl] using ih memory cs q k' v h
      | none =>
          simp only [resolveStep, hl]
          apply ih
          rw [memLookup_memStore_other]
          · exact h
          · rintro ⟨rfl, rfl⟩
            rw [h] at hl
            exact Option.noConfusion hl

theorem fold_resolveStep_untouched (ps : List Nat) :
    ∀ (memory : Mem) (cs : List (Nat × String)) (q : Nat) (k' : String),
      ¬(q ∈ ps ∧ k' = key) →
      memLookup (ps.foldl (resolveStep judge text_chunks key)
        (memory, cs)).1 q k' = memLookup memory q k' := by
  induction ps with
  | nil => intro memory cs q k' _; rfl
  | cons p ps ih =>
      intro memory cs q k' h
      simp only [List.foldl_cons]
      have hq : ¬(q ∈ ps ∧ k' = key) := by
        intro ⟨h1, h2⟩
        exact h ⟨List.mem_cons_of_mem p h1, h2⟩
      cases hl : memLookup memory p key with
      | some w => simpa [resolveStep, hl] using ih memory cs q k' hq
      | none =>
          simp only [resolveStep, hl]
          rw [ih _ _ _ _ hq]
          apply memLookup_memStore_other
          intro ⟨h1, h2⟩
          exact h ⟨by simp [h1], h2⟩

theorem fold_resolveStep_calls (ps : List Nat) :
    ∀ (memory : Mem) (cs : List (Nat × String)),
      ps.foldl (resolveStep judge text_chunks key) (memory, cs) =
        ((ps.foldl (resolveStep judge text_chunks key) (memory, [])).1,
          cs ++ (ps.foldl (resolveStep judge text_chunks key)
            (memory, [])).2) := by
  induction ps with
  | nil => intro memory cs; simp
  | cons p ps ih =>
      intro memory cs
      simp only [List.foldl_cons]
      cases hl : memLookup memory p key with
      | some w => simp only [resolveStep, hl]; exact ih memory cs
      | none =>
          simp only [resolveStep, hl, List.nil_append]
          rw [ih _ (cs ++ [(p, key)]), ih _ [(p, key)]]
          simp

theorem fold_resolveStep_inv (ps : List Nat) :
    ∀ (memory : Mem) (cs : List (Nat × String)),
      (∀ p ∈ ps, p < memory.length) → CallInv memory cs →
      CallInv (ps.foldl (resolveStep judge text_chunks key) (memory, cs)).1
        (ps.foldl (resolveStep judge text_chunks key) (memory, cs)).2 := by
  induction ps with
  | nil => intro memory cs _ h; exact h
  | cons p ps ih =>
      intro memory cs hw ⟨hnd, hres⟩
      simp only [List.foldl_cons]
      have hp : p < memory.length := hw p (List.mem_cons_self p ps)
      have hw' : ∀ q ∈ ps, q < memory.length :=
        fun q hq => hw q (List.mem_cons_of_mem p hq)
      cases hl : memLookup memory p key with
      | some w => simp only [resolveStep, hl]; exact ih memory cs hw' ⟨hnd, hres⟩
      | none =>
          simp only [resolveStep, hl]
          apply ih
          · intro q hq
            rw [memStore_length]
            exact hw' q hq
          constructor
          · have hnotin : (p, key) ∉ cs := by
              intro hin
              have := hres (p, key) hin
              rw [hl] at this
              simp at this
            simp [List.nodup_append, hnd, hnotin]
          · intro pr hpr
            rcases List.mem_append.mp hpr with hin | hnew
            · by_cases hpk : pr.1 = p ∧ pr.2 = key
              · rcases hpk with ⟨h1, h2⟩
                rw [h1, h2, memLookup_memStore_self _ _ _ _ hp]
                rfl
              · rw [memLookup_memStore_other _ _ hpk]
                exact hres pr hin
            · have : pr = (p, key) := by simpa using hnew
              rw [this, memLookup_memStore_self _ _ _ _ hp]
              rfl

theorem fold_resolveStep_isSome_mono (ps : List Nat) (memory : Mem)
    (cs : List (Nat × String)) (q : Nat) (k' : String)
    (h : (memLookup memory q k').isSome) :
    (memLookup (ps.foldl (resolveStep judge text_chunks key)
      (memory, cs)).1 q k').isSome := by
  rcases Option.isSome_iff_exists.mp h with ⟨v, hv⟩
  rw [fold_resolveStep_monotone judge text_chunks key ps memory cs q k' v hv]
  rfl

theorem fold_resolveStep_resolves (ps : List Nat) :
    ∀ (memory : Mem) (cs : List (Nat × String)),
      (∀ p ∈ ps, p < memory.length) →
      ∀ p ∈ ps,
        (memLookup (ps.foldl (resolveStep judge text_chunks key)
          (memory, cs)).1 p key).isSome := by
  induction ps with
  | nil => intro memory cs _ p hp; cases hp
  | cons p ps ih =>
      intro memory cs hw q hq
      simp only [List.foldl_cons]
      have hp : p < memory.length := hw p (List.mem_cons_self p ps)
      have hw' : ∀ x ∈ ps, x < memory.length :=
        fun x hx => hw x (List.mem_cons_of_mem p hx)
      rcases List.mem_cons.mp hq with rfl | hq'
      · cases hl : memLookup memory q key with
        | some w =>
            simp only [resolveStep, hl]
            apply fold_resolveStep_isSome_mono
            rw [hl]; rfl
        | none =>
            simp only [resolveStep, hl]
            apply fold_resolveStep_isSome_mono
            rw [memLookup_memStore_self _ _ _ _ hp]; rfl
      · cases hl : memLookup memory p key with
        | some w => simp only [resolveStep, hl]; exact ih memory cs hw' q hq'
        | none =>
            simp only [resolveStep, hl]
            apply ih
            · intro x hx
              rw [memStore_length]
              exact hw' x hx
            · exact hq'

theorem fold_resolveStep_calls_mem (ps : List Nat) :
    ∀ (memory : Mem) (cs : List (Nat × String)),
      ∀ c ∈ (ps.foldl (resolveStep judge text_chunks key) (memory, cs)).2,
        c ∈ cs ∨ (c.1 ∈ ps ∧ c.2 = key) := by
  induction ps with
  | nil => intro memory cs c hc; exact Or.inl hc
  | cons p ps ih =>
      intro memory cs c hc
      simp only [List.foldl_cons] at hc
      cases hl : memLookup memory p key with
      | some w =>
          simp only [resolveStep, hl] at hc
          rcases ih memory cs c hc with h | ⟨h1, h2⟩
          · exact Or.inl h
          · exact Or.inr ⟨List.mem_cons_of_mem p h1, h2⟩
      | none =>
          simp only [resolveStep, hl] at hc
          rcases ih _ _ c hc with h | ⟨h1, h2⟩
          · rcases List.mem_append.mp h with h' | h'
            · exact Or.inl h'
            · have : c = (p, key) := by simpa using h'
              exact Or.inr ⟨by simp [this], by simp [this]⟩
          · exact Or.inr ⟨List.mem_cons_of_mem p h1, h2⟩

end FoldLemmas

/-! ### Lemmas about `parse_from_ind` -/

section ParseLemmas

variable {α : Type _} [Inhabited α] (text_chunks : List α)

variable (num_to_recall : Nat) (memory : Mem) (ind : Nat) (key : String)

variable (judge : String → α → Bool)

theorem parse_from_ind_length :
    (parse_from_ind text_chunks num_to_recall memory ind key judge).2.1.length =
      memory.length :=
  fold_resolveStep_length judge text_chunks key _ memory []

theorem parse_from_ind_monotone (q : Nat) (k' : String) (v : Bool)
    (h : memLookup memory q k' = some v) :
    memLookup (parse_from_ind text_chunks num_to_recall memory ind key
      judge).2.1 q k' = some v :=
  fold_resolveStep_monotone judge text_chunks key _ memory [] q k' v h

theorem parse_from_ind_untouched (q : Nat) (k' : String)
    (h : ¬(q ∈ activeWindow num_to_recall ind ∧ k' = key)) :
    memLookup (parse_from_ind text_chunks num_to_recall memory ind key
      judge).2.1 q k' = memLookup memory q k' :=
  fold_resolveStep_untouched judge text_chunks key _ memory [] q k' h

theorem parse_from_ind_resolves (hind : ind < memory.length) :
    ∀ p ∈ activeWindow num_to_recall ind,
      (memLookup (parse_from_ind text_chunks num_to_recall memory ind key
        judge).2.1 p key).isSome := by
  apply fold_resolveStep_resolves
  intro p hp
  exact Nat.lt_of_le_of_lt (activeWindow_le hp) hind

theorem parse_from_ind_inv (done : List (Nat × String))
    (hinv : CallInv memory done) (hind : ind < memory.length) :
    CallInv
      (parse_from_ind text_chunks num_to_recall memory ind key judge).2.1
      (done ++
        (parse_from_ind text_chunks num_to_recall memory ind key
          judge).2.2) := by
  have hfac := fold_resolveStep_calls judge text_chunks key
    (activeWindow num_to_recall ind) memory done
  have hinv' := fold_resolveStep_inv judge text_chunks key
    (activeWindow num_to_recall ind) memory done
    (fun p hp => Nat.lt_of_le_of_lt (activeWindow_le hp) hind) hinv
  rw [hfac] at hinv'
  exact hinv'

theorem getD_false_eq_true_iff (o : Option Bool) :
    o.getD false = true ↔ o = some true := by
  cases o <;> simp

theorem parse_from_ind_out :
    (parse_from_ind text_chunks num_to_recall memory ind key judge).1 =
      true ↔
      ∃ p ∈ activeWindow num_to_recall ind,
        memLookup (parse_from_ind text_chunks num_to_recall memory ind key
          judge).2.1 p key = some true := by
  show (activeWindow num_to_recall ind).any _ = true ↔ _
  rw [List.any_eq_true]
  constructor
  · rintro ⟨p, hp, h⟩
    exact ⟨p, hp, (getD_false_eq_true_iff _).mp h⟩
  · rintro ⟨p, hp, h⟩
    exact ⟨p, hp, (getD_false_eq_true_iff _).mpr h⟩

theorem parse_from_ind_calls_le :
    ∀ c ∈ (parse_from_ind text_chunks num_to_recall memory ind key
      judge).2.2, c.1 ≤ ind := by
  intro c hc
  rcases fold_resolveStep_calls_mem judge text_chunks key
      (activeWindow num_to_recall ind) memory [] c hc with h | ⟨h1, _⟩
  · cases h
  · exact activeWindow_le h1

end ParseLemmas

/-! ### Lemmas about sequences of `parse_from_ind` calls -/

section RunLemmas

variable {α : Type _} [Inhabited α] (text_chunks : List α)

variable (num_to_recall : Nat) (judge : String → α → Bool)

theorem runQueries_length (queries : List (Nat × String)) :
    ∀ memory : Mem,
      (runQueries text_chunks num_to_recall judge memory queries).1.length =
        memory.length := by
  induction queries with
  | nil => intro memory; rfl
  | cons q qs ih =>
      intro memory
      obtain ⟨ind, k⟩ := q
      show (runQueries text_chunks num_to_recall judge
        (parse_from_ind text_chunks num_to_recall memory ind k
          judge).2.1 qs).1.length = memory.length
      rw [ih, parse_from_ind_length]

theorem runQueries_monotone (queries : List (Nat × String)) :
    ∀ (memory : Mem) (p : Nat) (k' : String) (v : Bool),
      memLookup memory p k' = some v →
      memLookup (runQueries text_chunks num_to_recall judge memory
        queries).1 p k' = some v := by
  induction queries with
  | nil => intro memory p k' v h; exact h
  | cons q qs ih =>
      intro memory p k' v h
      obtain ⟨ind, k⟩ := q
      exact ih _ p k' v
        (parse_from_ind_monotone text_chunks num_to_recall memory ind k
          judge p k' v h)

theorem runQueries_untouched (queries : List (Nat × String)) :
    ∀ (memory : Mem) (p : Nat) (k' : String),
      (∀ q ∈ queries, ¬(p ∈ activeWindow num_to_recall q.1 ∧ k' = q.2)) →
      memLookup (runQueries text_chunks num_to_recall judge memory
        queries).1 p k' = memLookup memory p k' := by
  induction queries with
  | nil => intro memory p k' _; rfl
  | cons q qs ih =>
      intro memory p k' h
      obtain ⟨ind, k⟩ := q
      have h1 := h (ind, k) (List.mem_cons_self _ _)
      have h2 : ∀ q ∈ qs, ¬(p ∈ activeWindow num_to_recall q.1 ∧ k' = q.2) :=
        fun q hq => h q (List.mem_cons_of_mem _ hq)
      show memLookup (runQueries text_chunks num_to_recall judge
        (parse_from_ind text_chunks num_to_recall memory ind k
          judge).2.1 qs).1 p k' = memLookup memory p k'
      rw [ih _ p k' h2]
      exact parse_from_ind_untouched text_chunks num_to_recall memory ind k
        judge p k' h1

theorem runQueries_inv (queries : List (Nat × String)) :
    ∀ (memory : Mem) (done : List (Nat × String)),
      CallInv memory done →
      (∀ q ∈ queries, q.1 < memory.length) →
      CallInv (runQueries text_chunks num_to_recall judge memory queries).1
        (done ++
          (runQueries text_chunks num_to_recall judge memory
            queries).2.2) := by
  induction queries with
  | nil =>
      intro memory done hinv _
      show CallInv memory (done ++ [])
      simpa using hinv
  | cons q qs ih =>
      intro memory done hinv hb
      obtain ⟨ind, k⟩ := q
      have hind : ind < memory.length := hb (ind, k) (List.mem_cons_self _ _)
      have hstep := parse_from_ind_inv text_chunks num_to_recall memory ind k
        judge done hinv hind
      have hb' : ∀ q ∈ qs, q.1 <
          (parse_from_ind text_chunks num_to_recall memory ind k
            judge).2.1.length := by
        intro q hq
        rw [parse_from_ind_length]
        exact hb q (List.mem_cons_of_mem _ hq)
      have := ih _ _ hstep hb'
      simpa [List.append_assoc] using this

end RunLemmas

/-! ### Claim theorems for the classifier -/

/-- C1: for every sequence of `parse_from_ind` calls on one memory
instance, each (chunk index, question key) pair is passed to the judge
callback at most once (the concatenated judge-call trace has no duplicate
pair), and once `memory[index][key]` is present it is never recomputed or
overwritten (every resolved entry survives unchanged to the final
memory). -/
theorem c1_resolve_judges_each_pair_at_most_once {α : Type} [Inhabited α]
    (text_chunks : List α) (num_to_recall : Nat)
    (judge : String → α → Bool) (memory : Mem)
    (queries : List (Nat × String))
    (hvalid : ∀ q ∈ queries, q.1 < memory.length) :
    ((runQueries text_chunks num_to_recall judge memory
        queries).2.2).Nodup ∧
      ∀ p k v, memLookup memory p k = some v →
        memLookup (runQueries text_chunks num_to_recall judge memory
          queries).1 p k = some v := by
  constructor
  · have hinv := runQueries_inv text_chunks num_to_recall judge queries
      memory [] ⟨List.nodup_nil, by simp⟩ hvalid
    simpa using hinv.1
  · intro p k v h
    exact runQueries_monotone text_chunks num_to_recall judge queries
      memory p k v h

/-- Witness for C1 at the spec's concrete scenario. -/
theorem c1_witness :
    (∀ q ∈ scenarioQueries, q.1 < (initMem 7).length) ∧
      ((runQueries scenarioChunks 3 scenarioJudge (initMem 7)
        scenarioQueries).2.2).Nodup :=
  ⟨by decide,
    (c1_resolve_judges_each_pair_at_most_once scenarioChunks 3 scenarioJudge
      (initMem 7) scenarioQueries (by decide)).1⟩

/-- C2: with recall window size `num_to_recall`, `parse_from_ind` returns
true iff `memory[p][key]` is true for some `p` in the active window after
judging every previously-unresolved position in that window; in the
concrete scenario (7 chunks, recall 3, judge true only on chunk value 0),
resolving index 0 yields true after 1 judge call, index 2 yields true
after 3 cumulative calls, and index 6 yields false after 6 cumulative
calls. -/
theorem c2_window_correctness {α : Type} [Inhabited α]
    (text_chunks : List α) (num_to_recall : Nat) (memory : Mem)
    (ind : Nat) (key : String) (judge : String → α → Bool)
    (hind : ind < memory.length) :
    ((∀ p ∈ activeWindow num_to_recall ind,
        (memLookup (parse_from_ind text_chunks num_to_recall memory ind key
          judge).2.1 p key).isSome) ∧
      ((parse_from_ind text_chunks num_to_recall memory ind key judge).1 =
          true ↔
        ∃ p ∈ activeWindow num_to_recall ind,
          memLookup (parse_from_ind text_chunks num_to_recall memory ind
            key judge).2.1 p key = some true)) ∧
      ((runQueries scenarioChunks 3 scenarioJudge (initMem 7)
          [(0, "k")]).2.1 = [true] ∧
        (runQueries scenarioChunks 3 scenarioJudge (initMem 7)
          [(0, "k")]).2.2.length = 1 ∧
        (runQueries scenarioChunks 3 scenarioJudge (initMem 7)
          [(0, "k"), (2, "k")]).2.1 = [true, true] ∧
        (runQueries scenarioChunks 3 scenarioJudge (initMem 7)
          [(0, "k"), (2, "k")]).2.2.length = 3 ∧
        (runQueries scenarioChunks 3 scenarioJudge (initMem 7)
          scenarioQueries).2.1 = [true, true, false] ∧
        (runQueries scenarioChunks 3 scenarioJudge (initMem 7)
          scenarioQueries).2.2.length = 6) := by
  refine ⟨⟨?_, ?_⟩, by decide⟩
  · exact parse_from_ind_resolves text_chunks num_to_recall memory ind key
      judge hind
  · exact parse_from_ind_out text_chunks num_to_recall memory ind key judge

/-- Witness for C2: the window at index 2 is fully resolved after the
call. -/
theorem c2_witness :
    (2 : Nat) < (initMem 7).length ∧
      ∀ p ∈ activeWindow 3 2,
        (memLookup (parse_from_ind scenarioChunks 3 (initMem 7) 2 "k"
          scenarioJudge).2.1 p "k").isSome :=
  ⟨by decide,
    (c2_window_correctness scenarioChunks 3 (initMem 7) 2 "k" scenarioJudge
      (by decide)).1.1⟩

/-- C6: chunk indices that never fall inside any queried window for a key
remain permanently absent from memory for that key; in the concrete
scenario with queries at indices 0, 2, and 6 and recall size 3, index 3
remains an empty mapping. -/
theorem c6_gap_property {α : Type} [Inhabited α] (text_chunks : List α)
    (num_to_recall : Nat) (judge : String → α → Bool) (memory : Mem)
    (queries : List (Nat × String)) (p : Nat) (key : String)
    (hgap : ∀ q ∈ queries, key = q.2 → p ∉ activeWindow num_to_recall q.1)
    (hnone : memLookup memory p key = none) :
    memLookup (runQueries text_chunks num_to_recall judge memory
        queries).1 p key = none ∧
      (runQueries scenarioChunks 3 scenarioJudge (initMem 7)
        scenarioQueries).1.getD 3 [] = [] := by
  refine ⟨?_, by decide⟩
  rw [runQueries_untouched text_chunks num_to_recall judge queries memory p
    key ?_]
  · exact hnone
  · intro q hq ⟨hin, hk⟩
    exact hgap q hq hk hin

/-- Witness for C6 at index 3 of the concrete scenario. -/
theorem c6_witness :
    (∀ q ∈ scenarioQueries, "k" = q.2 → 3 ∉ activeWindow 3 q.1) ∧
      memLookup (initMem 7) 3 "k" = none ∧
      memLookup (runQueries scenarioChunks 3 scenarioJudge (initMem 7)
        scenarioQueries).1 3 "k" = none :=
  ⟨by decide, by decide,
    (c6_gap_property scenarioChunks 3 scenarioJudge (initMem 7)
      scenarioQueries 3 "k" (by decide) (by decide)).1⟩

section ScanLemmas

variable {α : Type _} [Inhabited α] (text_chunks : List α)

variable (num_to_recall : Nat) (heuristic : α → Bool) (key : String)

variable (judge : String → α → Bool) (min_chunks_to_process : Nat)

theorem parse_by_chunks_go_false_examined (rest : List α) :
    ∀ (ind examined : Nat) (memory : Mem) (hc : List Nat)
      (rs : List (Nat × Bool)) (tr : List (Nat × String)),
      (parse_by_chunks_go text_chunks num_to_recall heuristic key judge
        min_chunks_to_process rest ind examined memory hc rs
        tr).verdict = false →
      (parse_by_chunks_go text_chunks num_to_recall heuristic key judge
          min_chunks_to_process rest ind examined memory hc rs
          tr).examined = examined + rest.length ∨
        min_chunks_to_process ≤
          (parse_by_chunks_go text_chunks num_to_recall heuristic key judge
            min_chunks_to_process rest ind examined memory hc rs
            tr).examined := by
  induction rest with
  | nil => intro ind examined memory hc rs tr _; left; rfl
  | cons chunk rest ih =>
      intro ind examined memory hc rs tr hv
      by_cases hmin : min_chunks_to_process ≤ examined
      · right
        simp only [parse_by_chunks_go, if_pos hmin]
        exact hmin
      · simp only [parse_by_chunks_go, if_neg hmin] at hv ⊢
        by_cases hh : heuristic chunk
        · simp only [if_pos hh] at hv ⊢
          by_cases hr : (parse_from_ind text_chunks num_to_recall memory ind
              key judge).1
          · rw [if_pos hr] at hv
            exact absurd hv (by simp)
          · simp only [if_neg hr] at hv ⊢
            rcases ih _ _ _ _ _ _ hv with h | h
            · left; rw [h]; simp; omega
            · right; exact h
        · simp only [if_neg hh] at hv ⊢
          rcases ih _ _ _ _ _ _ hv with h | h
          · left; rw [h]; simp; omega
          · right; exact h

theorem parse_by_chunks_go_false_iff (rest : List α) :
    ∀ (ind examined : Nat) (memory : Mem) (hc : List Nat)
      (rs : List (Nat × Bool)) (tr : List (Nat × String)),
      (∀ x ∈ rs, x.2 = false) →
      ((parse_by_chunks_go text_chunks num_to_recall heuristic key judge
          min_chunks_to_process rest ind examined memory hc rs
          tr).verdict = false ↔
        ∀ x ∈ (parse_by_chunks_go text_chunks num_to_recall heuristic key
          judge min_chunks_to_process rest ind examined memory hc rs
          tr).resolved, x.2 = false) := by
  induction rest with
  | nil =>
      intro ind examined memory hc rs tr hrs
      exact ⟨fun _ => hrs, fun _ => rfl⟩
  | cons chunk rest ih =>
      intro ind examined memory hc rs tr hrs
      by_cases hmin : min_chunks_to_process ≤ examined
      · simp only [parse_by_chunks_go, if_pos hmin]
        exact ⟨fun _ => hrs, fun _ => by trivial⟩
      · simp only [parse_by_chunks_go, if_neg hmin]
        by_cases hh : heuristic chunk
        · simp only [if_pos hh]
          by_cases hr : (parse_from_ind text_chunks num_to_recall memory ind
              key judge).1
          · simp only [if_pos hr]
            constructor
            · intro h; cases h
            · intro h
              have := h (ind, true) (by simp)
              cases this
          · simp only [if_neg hr]
            apply ih
            intro x hx
            rcases List.mem_append.mp hx with h | h
            · exact hrs x h
            · have : x = (ind, false) := by simpa using h
              rw [this]
        · simp only [if_neg hh]
          exact ih _ _ _ _ _ _ hrs

theorem parse_by_chunks_go_short_circuit (rest : List α) :
    ∀ (ind examined : Nat) (memory : Mem) (hc : List Nat)
      (rs : List (Nat × Bool)) (tr : List (Nat × String)),
      (∀ j ∈ hc, j < ind) → (∀ x ∈ rs, x.1 < ind ∧ x.2 = false) →
      (∀ c ∈ tr, c.1 < ind) →
      (parse_by_chunks_go text_chunks num_to_recall heuristic key judge
        min_chunks_to_process rest ind examined memory hc rs
        tr).verdict = true →
      ∃ i,
        (parse_by_chunks_go text_chunks num_to_recall heuristic key judge
            min_chunks_to_process rest ind examined memory hc rs
            tr).resolved.getLast? = some (i, true) ∧
        (∀ x ∈ (parse_by_chunks_go text_chunks num_to_recall heuristic key
            judge min_chunks_to_process rest ind examined memory hc rs
            tr).resolved.dropLast, x.2 = false) ∧
        (∀ j ∈ (parse_by_chunks_go text_chunks num_to_recall heuristic key
            judge min_chunks_to_process rest ind examined memory hc rs
            tr).heurChecked, j ≤ i) ∧
        (∀ x ∈ (parse_by_chunks_go text_chunks num_to_recall heuristic key
            judge min_chunks_to_process rest ind examined memory hc rs
            tr).resolved, x.1 ≤ i) ∧
        (∀ c ∈ (parse_by_chunks_go text_chunks num_to_recall heuristic key
            judge min_chunks_to_process rest ind examined memory hc rs
            tr).trace, c.1 ≤ i) := by
  induction rest with
  | nil => intro ind examined memory hc rs tr _ _ _ hv; cases hv
  | cons chunk rest ih =>
      intro ind examined memory hc rs tr hhc hrs htr hv
      by_cases hmin : min_chunks_to_process ≤ examined
      · rw [parse_by_chunks_go, if_pos hmin] at hv
        cases hv
      · rw [parse_by_chunks_go, if_neg hmin] at hv ⊢
        by_cases hh : heuristic chunk
        · rw [if_pos hh] at hv ⊢
          by_cases hr : (parse_from_ind text_chunks num_to_recall memory ind
              key judge).1
          · simp only [if_pos hr] at hv ⊢
            refine ⟨ind, ?_, ?_, ?_, ?_, ?_⟩
            · simp
            · rw [List.dropLast_concat]
              intro x hx
              exact (hrs x hx).2
            · intro j hj
              rcases List.mem_append.mp hj with h | h
              · exact Nat.le_of_lt (hhc j h)
              · have : j = ind := by simpa using h
                omega
            · intro x hx
              rcases List.mem_append.mp hx with h | h
              · exact Nat.le_of_lt (hrs x h).1
              · have : x = (ind, true) := by simpa using h
                rw [this]
            · intro c hcm
              rcases List.mem_append.mp hcm with h | h
              · exact Nat.le_of_lt (htr c h)
              · exact parse_from_ind_calls_le text_chunks num_to_recall
                  memory ind key judge c h
          · simp only [if_neg hr] at hv ⊢
            apply ih _ _ _ _ _ _ ?_ ?_ ?_ hv
            · intro j hj
              rcases List.mem_append.mp hj with h | h
              · exact Nat.lt_succ_of_lt (hhc j h)
              · have : j = ind := by simpa using h
                omega
            · intro x hx
              rcases List.mem_append.mp hx with h | h
              · exact ⟨Nat.lt_succ_of_lt (hrs x h).1, (hrs x h).2⟩
              · have : x = (ind, false) := by simpa using h
                rw [this]
                exact ⟨Nat.lt_succ_self ind, rfl⟩
            · intro c hcm
              rcases List.mem_append.mp hcm with h | h
              · exact Nat.lt_succ_of_lt (htr c h)
              · exact Nat.lt_succ_of_le
                  (parse_from_ind_calls_le text_chunks num_to_recall memory
                    ind key judge c h)
        · rw [if_neg hh] at hv ⊢
          apply ih _ _ _ _ _ _ ?_ ?_ ?_ hv
          · intro j hj
            rcases List.mem_append.mp hj with h | h
            · exact Nat.lt_succ_of_lt (hhc j h)
            · have : j = ind := by simpa using h
              omega
          · intro x hx
            exact ⟨Nat.lt_succ_of_lt (hrs x hx).1, (hrs x hx).2⟩
          · intro c hcm
            exact Nat.lt_succ_of_lt (htr c hcm)

end ScanLemmas

/-! ### Claim theorems for the scan orchestrator -/

/-- C3: the scan never returns a negative verdict after examining fewer
than `min(min_chunks_to_process, len(chunks))` chunks, and it concludes
negative exactly when no examined chunk produced a positive window
result (sequence exhausted, or the examined-chunk minimum reached,
without a positive). -/
theorem c3_scan_minimum_evidence {α : Type} [Inhabited α]
    (text_chunks : List α) (num_to_recall : Nat) (heuristic : α → Bool)
    (key : String) (judge : String → α → Bool)
    (min_chunks_to_process : Nat) :
    ((parse_by_chunks text_chunks num_to_recall heuristic key judge
        min_chunks_to_process).verdict = false →
      min min_chunks_to_process text_chunks.length ≤
        (parse_by_chunks text_chunks num_to_recall heuristic key judge
          min_chunks_to_process).examined) ∧
      ((parse_by_chunks text_chunks num_to_recall heuristic key judge
          min_chunks_to_process).verdict = false ↔
        ∀ x ∈ (parse_by_chunks text_chunks num_to_recall heuristic key
          judge min_chunks_to_process).resolved, x.2 = false) := by
  constructor
  · intro hv
    rcases parse_by_chunks_go_false_examined text_chunks num_to_recall
        heuristic key judge min_chunks_to_process text_chunks 0 0
        (initMem text_chunks.length) [] [] [] hv with h | h
    · show min min_chunks_to_process text_chunks.length ≤
        (parse_by_chunks_go text_chunks num_to_recall heuristic key judge
          min_chunks_to_process text_chunks 0 0
          (initMem text_chunks.length) [] [] []).examined
      omega
    · show min min_chunks_to_process text_chunks.length ≤
        (parse_by_chunks_go text_chunks num_to_recall heuristic key judge
          min_chunks_to_process text_chunks 0 0
          (initMem text_chunks.length) [] [] []).examined
      omega
  · exact parse_by_chunks_go_false_iff text_chunks num_to_recall heuristic
      key judge min_chunks_to_process text_chunks 0 0
      (initMem text_chunks.length) [] [] [] (by simp)

/-- Witness for C3: a scan whose judge never fires stops negatively only
after the minimum number of chunks. -/
theorem c3_witness :
    (parse_by_chunks scenarioChunks 2 (fun _ => true) "k"
        (fun _ c => c == 9) 3).verdict = false ∧
      min 3 scenarioChunks.length ≤
        (parse_by_chunks scenarioChunks 2 (fun _ => true) "k"
          (fun _ c => c == 9) 3).examined :=
  ⟨by decide,
    (c3_scan_minimum_evidence scenarioChunks 2 (fun _ => true) "k"
      (fun _ c => c == 9) 3).1 (by decide)⟩

/-- C5: if any examined chunk yields a positive window result, the scan
returns a positive verdict immediately: the positive result is the last
classifier call, every earlier window result was negative, and no
heuristic check, classifier call, or judge call concerns any index
greater than the index at which the positive result was observed. -/
theorem c5_scan_short_circuit {α : Type} [Inhabited α]
    (text_chunks : List α) (num_to_recall : Nat) (heuristic : α → Bool)
    (key : String) (judge : String → α → Bool)
    (min_chunks_to_process : Nat)
    (hv : (parse_by_chunks text_chunks num_to_recall heuristic key judge
      min_chunks_to_process).verdict = true) :
    ∃ i,
      (parse_by_chunks text_chunks num_to_recall heuristic key judge
          min_chunks_to_process).resolved.getLast? = some (i, true) ∧
      (∀ x ∈ (parse_by_chunks text_chunks num_to_recall heuristic key judge
          min_chunks_to_process).resolved.dropLast, x.2 = false) ∧
      (∀ j ∈ (parse_by_chunks text_chunks num_to_recall heuristic key judge
          min_chunks_to_process).heurChecked, j ≤ i) ∧
      (∀ x ∈ (parse_by_chunks text_chunks num_to_recall heuristic key judge
          min_chunks_to_process).resolved, x.1 ≤ i) ∧
      (∀ c ∈ (parse_by_chunks text_chunks num_to_recall heuristic key judge
          min_chunks_to_process).trace, c.1 ≤ i) :=
  parse_by_chunks_go_short_circuit text_chunks num_to_recall heuristic key
    judge min_chunks_to_process text_chunks 0 0
    (initMem text_chunks.length) [] [] [] (by simp) (by simp) (by simp) hv

/-- Witness for C5: a scan that hits a positive window result at index 0
examines nothing beyond it. -/
theorem c5_witness :
    (parse_by_chunks scenarioChunks 3 (fun _ => true) "k" scenarioJudge
        3).verdict = true ∧
      ∃ i,
        (parse_by_chunks scenarioChunks 3 (fun _ => true) "k" scenarioJudge
            3).resolved.getLast? = some (i, true) ∧
        (∀ x ∈ (parse_by_chunks scenarioChunks 3 (fun _ => true) "k"
            scenarioJudge 3).resolved.dropLast, x.2 = false) ∧
        (∀ j ∈ (parse_by_chunks scenarioChunks 3 (fun _ => true) "k"
            scenarioJudge 3).heurChecked, j ≤ i) ∧
        (∀ x ∈ (parse_by_chunks scenarioChunks 3 (fun _ => true) "k"
            scenarioJudge 3).resolved, x.1 ≤ i) ∧
        (∀ c ∈ (parse_by_chunks scenarioChunks 3 (fun _ => true) "k"
            scenarioJudge 3).trace, c.1 ≤ i) :=
  ⟨by decide,
    c5_scan_short_circuit scenarioChunks 3 (fun _ => true) "k"
      scenarioJudge 3 (by decide)⟩

theorem listContains_of_isPrefixOf [BEq α] {n h : List α}
    (hp : n.isPrefixOf h = true) : listContains n h = true := by
  cases h with
  | nil =>
      cases n with
      | nil => rfl
      | cons c t => simp [List.isPrefixOf] at hp
  | cons c t => simp [listContains, hp]

theorem listContains_append_left [BEq α] (a : List α) {n h : List α}
    (hc : listContains n h = true) : listContains n (a ++ h) = true := by
  induction a with
  | nil => exact hc
  | cons c a ih => simp [listContains, ih]

/-- A string built around `n` contains `n`. -/
theorem containsSub_of_eq {hay : String} (a n b : String)
    (h : hay = a ++ n ++ b) : containsSub hay n = true := by
  subst h
  unfold containsSub
  simp only [String.data_append]
  rw [List.append_assoc]
  apply listContains_append_left
  apply listContains_of_isPrefixOf
  simp [List.isPrefixOf_iff_prefix]

theorem listContains_iff [BEq α] [LawfulBEq α] {n h : List α} :
    listContains n h = true ↔ ∃ a b, h = a ++ n ++ b := by
  constructor
  · intro hc
    induction h with
    | nil =>
        cases n with
        | nil => exact ⟨[], [], rfl⟩
        | cons a t =>
            exact absurd hc (by simp [listContains, List.isEmpty])
    | cons c t ih =>
        have hc' : (n.isPrefixOf (c :: t) || listContains n t) = true := hc
        rcases Bool.or_eq_true_iff.mp hc' with hpre | hrec
        · obtain ⟨b, hb⟩ := List.isPrefixOf_iff_prefix.mp hpre
          exact ⟨[], b, by simp [← hb]⟩
        · obtain ⟨a, b, hab⟩ := ih hrec
          exact ⟨c :: a, b, by simp [hab]⟩
  · rintro ⟨a, b, rfl⟩
    rw [List.append_assoc]
    refine listContains_append_left a ?_
    refine listContains_of_isPrefixOf ?_
    exact List.isPrefixOf_iff_prefix.mpr (List.prefix_append n b)

/-- An occurrence of `n1 ++ n2` yields an occurrence of `n1`. -/
theorem listContains_prefix_part [BEq α] [LawfulBEq α] {n1 n2 h : List α}
    (hc : listContains (n1 ++ n2) h = true) :
    listContains n1 h = true := by
  obtain ⟨a, b, rfl⟩ := listContains_iff.mp hc
  exact listContains_iff.mpr ⟨a, n2 ++ b, by simp⟩

theorem prefix_append_cases {l c r : List α} (h : l <+: c ++ r) :
    l <+: c ∨ c <+: l := by
  obtain ⟨t, ht⟩ := h
  rcases List.append_eq_append_iff.mp ht with ⟨a', h1, _⟩ | ⟨c', h1, _⟩
  · exact Or.inl ⟨a', h1.symm⟩
  · exact Or.inr ⟨c', h1.symm⟩

/-- Any occurrence of `n` in `x ++ y` lies within `x`, lies within `y`,
or straddles the boundary: a nonempty proper prefix of `n` is a suffix
of `x` and the matching remainder is a prefix of `y`. -/
theorem listContains_split [BEq α] [LawfulBEq α] {n x y : List α}
    (h : listContains n (x ++ y) = true) :
    listContains n x = true ∨ listContains n y = true ∨
      ∃ k, 0 < k ∧ k < n.length ∧ n.take k <:+ x ∧ n.drop k <+: y := by
  obtain ⟨a, b, hab⟩ := listContains_iff.mp h
  have hab' : x ++ y = a ++ (n ++ b) := by rw [hab, List.append_assoc]
  rcases List.append_eq_append_iff.mp hab' with ⟨a', _, h2⟩ | ⟨c', h1, h2⟩
  · refine Or.inr (Or.inl (listContains_iff.mpr ⟨a', b, ?_⟩))
    rw [h2, List.append_assoc]
  · rcases List.append_eq_append_iff.mp h2 with ⟨e, he1, _⟩ | ⟨e, he1, he2⟩
    · refine Or.inl (listContains_iff.mpr ⟨a, e, ?_⟩)
      rw [h1, he1, List.append_assoc]
    · cases hc' : c' with
      | nil =>
          rw [hc'] at he1 h1
          simp only [List.nil_append] at he1
          refine Or.inr (Or.inl (listContains_iff.mpr ⟨[], b, ?_⟩))
          rw [he2, ← he1]
          simp
      | cons d ds =>
          cases he : e with
          | nil =>
              rw [he] at he1
              simp only [List.append_nil] at he1
              refine Or.inl (listContains_iff.mpr ⟨a, [], ?_⟩)
              rw [h1, ← he1]
              simp
          | cons f fs =>
              refine Or.inr (Or.inr ⟨c'.length, ?_, ?_, ?_, ?_⟩)
              · rw [hc']
                simp
              · have hlen : n.length = c'.length + e.length := by
                  rw [he1]
                  simp
                rw [hlen, he]
                simp
              · have ht : n.take c'.length = c' := by
                  rw [he1]
                  exact List.take_left c' e
                rw [ht, h1]
                exact List.suffix_append a c'
              · have hd : n.drop c'.length = e := by
                  rw [he1]
                  exact List.drop_left c' e
                rw [hd, he2]
                exact List.prefix_append e b

/-- Compose non-containment across an append, given that no straddling
occurrence is possible. -/
theorem notContains_append [BEq α] [LawfulBEq α] {n x y : List α}
    (hx : listContains n x = false) (hy : listContains n y = false)
    (hstr : ∀ k, 0 < k → k < n.length →
      ¬(n.take k <:+ x ∧ n.drop k <+: y)) :
    listContains n (x ++ y) = false := by
  cases hres : listContains n (x ++ y) with
  | false => rfl
  | true =>
      exfalso
      rcases listContains_split hres with h | h | ⟨k, hk0, hkl, hs, hp⟩
      · rw [h] at hx
        cases hx
      · rw [h] at hy
        cases hy
      · exact hstr k hk0 hkl ⟨hs, hp⟩

/-- Non-containment extends leftward across a concrete template piece:
the decidable guard says no nonempty proper prefix of the needle is a
suffix of the template piece. -/
theorem notContains_lit_append [BEq α] [LawfulBEq α] {n t rest : List α}
    (h1 : listContains n t = false) (h2 : listContains n rest = false)
    (hg : (List.range n.length).all
      (fun k => (k == 0) || !((n.take k).isSuffixOf t)) = true) :
    listContains n (t ++ rest) = false := by
  refine notContains_append h1 h2 ?_
  intro k hk0 hkl hand
  have hk := List.all_eq_true.mp hg k (List.mem_range.mpr hkl)
  rcases Bool.or_eq_true_iff.mp hk with h0 | hns
  · have : k = 0 := by simpa using h0
    omega
  · have htrue : (n.take k).isSuffixOf t = true :=
      List.isSuffixOf_iff_suffix.mpr hand.1
    rw [htrue] at hns
    simp at hns

/-- Non-containment extends leftward across a variable piece followed by
a concrete piece `c`: straddling is excluded either by the shape of `c`
or by a hypothesis on the variable's suffixes. -/
theorem notContains_var_append [BEq α] [LawfulBEq α] {n v c rest : List α}
    (h1 : listContains n v = false)
    (h2 : listContains n (c ++ rest) = false)
    (hsuf : ∀ k, 0 < k → k < n.length →
      ((n.drop k).isPrefixOf c || c.isPrefixOf (n.drop k)) = true →
      (n.take k).isSuffixOf v = false) :
    listContains n (v ++ (c ++ rest)) = false := by
  refine notContains_append h1 h2 ?_
  intro k hk0 hkl hand
  have hcond : ((n.drop k).isPrefixOf c || c.isPrefixOf (n.drop k)) =
      true := by
    rcases prefix_append_cases hand.2 with h | h
    · exact Bool.or_eq_true_iff.mpr (Or.inl (List.isPrefixOf_iff_prefix.mpr h))
    · exact Bool.or_eq_true_iff.mpr (Or.inr (List.isPrefixOf_iff_prefix.mpr h))
  have hfalse := hsuf k hk0 hkl hcond
  have htrue : (n.take k).isSuffixOf v = true :=
    List.isSuffixOf_iff_suffix.mpr hand.1
  rw [htrue] at hfalse
  cases hfalse

/-- As `notContains_var_append`, for a variable piece followed by the
final concrete piece. -/
theorem notContains_var_append_last [BEq α] [LawfulBEq α] {n v c : List α}
    (h1 : listContains n v = false) (h2 : listContains n c = false)
    (hsuf : ∀ k, 0 < k → k < n.length →
      ((n.drop k).isPrefixOf c || c.isPrefixOf (n.drop k)) = true →
      (n.take k).isSuffixOf v = false) :
    listContains n (v ++ c) = false := by
  refine notContains_append h1 h2 ?_
  intro k hk0 hkl hand
  have hcond : ((n.drop k).isPrefixOf c || c.isPrefixOf (n.drop k)) =
      true :=
    Bool.or_eq_true_iff.mpr (Or.inl (List.isPrefixOf_iff_prefix.mpr hand.2))
  have hfalse := hsuf k hk0 hkl hcond
  have htrue : (n.take k).isSuffixOf v = true :=
    List.isSuffixOf_iff_suffix.mpr hand.1
  rw [htrue] at hfalse
  cases hfalse

theorem noThe_contains {s : String} (h : noThe s = true) :
    listContains ("the ".data) s.data = false := by
  rcases Bool.and_eq_true_iff.mp h with ⟨h1, _⟩
  simpa [containsSub] using h1

theorem noThe_suffix {s : String} (h : noThe s = true) :
    ("the".data).isSuffixOf s.data = false := by
  rcases Bool.and_eq_true_iff.mp h with ⟨_, h2⟩
  simpa using h2

theorem noTheCI_contains {s : String} (h : noTheCI s = true) :
    listContains ("the ".data.map lowerCode) (s.data.map lowerCode) =
      false := by
  rcases Bool.and_eq_true_iff.mp h with ⟨h1, _⟩
  simpa [containsSubCI] using h1

theorem noTheCI_suffix {s : String} (h : noTheCI s = true) :
    ("the".data.map lowerCode).isSuffixOf (s.data.map lowerCode) =
      false := by
  rcases Bool.and_eq_true_iff.mp h with ⟨_, h2⟩
  simpa using h2

/-- Straddle discharge when the boundary shape alone excludes every
straddling occurrence (decidable check against the concrete piece). -/
theorem needleSuf_safe [BEq α] [LawfulBEq α] {n c : List α}
    (hdec : (List.range n.length).all (fun k => (k == 0) ||
      (!((n.drop k).isPrefixOf c) && !(c.isPrefixOf (n.drop k)))) = true) :
    ∀ (v : List α) k, 0 < k → k < n.length →
      ((n.drop k).isPrefixOf c || c.isPrefixOf (n.drop k)) = true →
      (n.take k).isSuffixOf v = false := by
  intro v k hk0 hkl hcond
  exfalso
  have hk := List.all_eq_true.mp hdec k (List.mem_range.mpr hkl)
  rcases Bool.or_eq_true_iff.mp hk with h0 | hcc
  · have : k = 0 := by simpa using h0
    omega
  · rcases Bool.and_eq_true_iff.mp hcc with ⟨ha, hb⟩
    rcases Bool.or_eq_true_iff.mp hcond with h | h
    · rw [h] at ha
      simp at ha
    · rw [h] at hb
      simp at hb

/-- Straddle discharge for a length-4 needle whose only possible
straddle splits after three elements, excluded by a hypothesis on the
variable piece's suffix. -/
theorem needleSuf_risky3 [BEq α] [LawfulBEq α] {n c v : List α}
    (hn : n.length = 4)
    (h1 : (!((n.drop 1).isPrefixOf c) && !(c.isPrefixOf (n.drop 1))) = true)
    (h2 : (!((n.drop 2).isPrefixOf c) && !(c.isPrefixOf (n.drop 2))) = true)
    (hv3 : (n.take 3).isSuffixOf v = false) :
    ∀ k, 0 < k → k < n.length →
      ((n.drop k).isPrefixOf c || c.isPrefixOf (n.drop k)) = true →
      (n.take k).isSuffixOf v = false := by
  intro k hk0 hkl hcond
  rw [hn] at hkl
  interval_cases k
  · exfalso
    rcases Bool.and_eq_true_iff.mp h1 with ⟨ha, hb⟩
    rcases Bool.or_eq_true_iff.mp hcond with h | h
    · rw [h] at ha
      simp at ha
    · rw [h] at hb
      simp at hb
  · exfalso
    rcases Bool.and_eq_true_iff.mp h2 with ⟨ha, hb⟩
    rcases Bool.or_eq_true_iff.mp hcond with h | h
    · rw [h] at ha
      simp at ha
    · rw [h] at hb
      simp at hb
  · exact hv3

/-- The county branching prompt never contains the word "the " for a
clean county phrase. -/
theorem tierPrompt_county_the_free (j : Jurisdiction)
    (hp : noThe j.full_county_phrase = true) :
    listContains ("the ".data) ((tierPrompt j .county).data) = false := by
  have hres : listContains ("the ".data)
      ("Is this text specifically about ".data ++
        (j.full_county_phrase.data ++
          ", rather than some other jurisdiction?".data)) = false := by
    refine notContains_lit_append (by decide) ?_ (by decide)
    exact notContains_var_append_last (noThe_contains hp) (by decide)
      (needleSuf_safe (by decide) _)
  simpa only [tierPrompt, String.data_append, List.append_assoc] using hres

/-- The URL county prompt never contains the word "the " for a clean
county phrase. -/
theorem urlCountyPrompt_the_free (j : Jurisdiction)
    (hp : noThe j.full_county_phrase = true) :
    listContains ("the ".data) ((urlCountyPrompt j).data) = false := by
  have hres : listContains ("the ".data)
      ("Does this URL mention ".data ++
        (j.full_county_phrase.data ++ "?".data)) = false := by
    refine notContains_lit_append (by decide) ?_ (by decide)
    exact notContains_var_append_last (noThe_contains hp) (by decide)
      (needleSuf_safe (by decide) _)
  simpa only [urlCountyPrompt, String.data_append, List.append_assoc]
    using hres

/-- The URL terminal prompt never contains the word "the " for clean
jurisdiction names. -/
theorem urlFinalPrompt_the_free (j : Jurisdiction)
    (hs : noThe j.state = true) (hp : noThe j.full_county_phrase = true)
    (hty : noThe j.type_ = true)
    (hsub : noThe j.full_subdivision_phrase = true) :
    listContains ("the ".data) ((urlFinalPrompt j).data) = false := by
  have hv3s : (("the ".data).take 3).isSuffixOf j.state.data = false := by
    rw [show (("the ".data).take 3) = "the".data from rfl]
    exact noThe_suffix hs
  have hv3ty : (("the ".data).take 3).isSuffixOf j.type_.data = false := by
    rw [show (("the ".data).take 3) = "the".data from rfl]
    exact noThe_suffix hty
  rcases hc : j.county with _ | cn <;>
    rcases hd : j.subdivision_name with _ | sn
  · simp only [urlFinalPrompt, hc, hd, String.data_append,
      List.append_assoc]
    refine notContains_lit_append (by decide) ?_ (by decide)
    refine notContains_var_append (noThe_contains hs) ?_
      (needleSuf_risky3 rfl (by decide) (by decide) hv3s)
    decide
  · simp only [urlFinalPrompt, hc, hd, String.data_append,
      List.append_assoc]
    refine notContains_lit_append (by decide) ?_ (by decide)
    refine notContains_var_append (noThe_contains hs) ?_
      (needleSuf_risky3 rfl (by decide) (by decide) hv3s)
    refine notContains_lit_append (by decide) ?_ (by decide)
    refine notContains_lit_append (by decide) ?_ (by decide)
    refine notContains_lit_append (by decide) ?_ (by decide)
    refine notContains_var_append (noThe_contains hty) ?_
      (needleSuf_risky3 rfl (by decide) (by decide) hv3ty)
    refine notContains_lit_append (by decide) ?_ (by decide)
    exact notContains_var_append_last (noThe_contains hsub) (by decide)
      (needleSuf_safe (by decide) _)
  · simp only [urlFinalPrompt, hc, hd, String.data_append,
      List.append_assoc]
    refine notContains_lit_append (by decide) ?_ (by decide)
    refine notContains_var_append (noThe_contains hs) ?_
      (needleSuf_risky3 rfl (by decide) (by decide) hv3s)
    refine notContains_lit_append (by decide) ?_ (by decide)
    refine notContains_lit_append (by decide) ?_ (by decide)
    refine notContains_var_append (noThe_contains hp) ?_
      (needleSuf_safe (by decide) _)
    decide
  · simp only [urlFinalPrompt, hc, hd, String.data_append,
      List.append_assoc]
    refine notContains_lit_append (by decide) ?_ (by decide)
    refine notContains_var_append (noThe_contains hs) ?_
      (needleSuf_risky3 rfl (by decide) (by decide) hv3s)
    refine notContains_lit_append (by decide) ?_ (by decide)
    refine notContains_lit_append (by decide) ?_ (by decide)
    refine notContains_var_append (noThe_contains hp) ?_
      (needleSuf_safe (by decide) _)
    refine notContains_lit_append (by decide) ?_ (by decide)
    refine notContains_lit_append (by decide) ?_ (by decide)
    refine notContains_var_append (noThe_contains hty) ?_
      (needleSuf_risky3 rfl (by decide) (by decide) hv3ty)
    refine notContains_lit_append (by decide) ?_ (by decide)
    exact notContains_var_append_last (noThe_contains hsub) (by decide)
      (needleSuf_safe (by decide) _)

/-- A string without the word "the " contains no phrase of the form
"the …". -/
theorem cs_the_phrase_not_contained {hay : String} (p : String)
    (h : listContains ("the ".data) hay.data = false) :
    containsSub hay ("the " ++ p) = false := by
  cases hres : containsSub hay ("the " ++ p) with
  | false => rfl
  | true =>
      exfalso
      have hres' : listContains (("the " ++ p).data) hay.data = true :=
        hres
      rw [String.data_append] at hres'
      have hpart := listContains_prefix_part hres'
      rw [hpart] at h
      cases h

/-- A string without the word "the " (case-insensitively) does not
contain "the state of" case-insensitively. -/
theorem ci_state_of_not_contained {hay : String}
    (h : listContains ("the ".data.map lowerCode)
      (hay.data.map lowerCode) = false) :
    containsSubCI hay "the state of" = false := by
  cases hres : containsSubCI hay "the state of" with
  | false => rfl
  | true =>
      exfalso
      have hres' : listContains ((("the state of").data).map lowerCode)
          (hay.data.map lowerCode) = true := hres
      have hsplit : (("the state of").data).map lowerCode =
          ("the ".data.map lowerCode) ++
            (("state of").data.map lowerCode) := by decide
      rw [hsplit] at hres'
      have hpart := listContains_prefix_part hres'
      rw [hpart] at h
      cases h

/-- The state branching prompt never contains the word "the "
case-insensitively, for a clean state name. -/
theorem tierPrompt_state_the_free_ci (j : Jurisdiction)
    (hs : noTheCI j.state = true) :
    listContains ("the ".data.map lowerCode)
      (((tierPrompt j .state).data).map lowerCode) = false := by
  have hv3s : (("the ".data.map lowerCode).take 3).isSuffixOf
      (j.state.data.map lowerCode) = false := by
    rw [show (("the ".data.map lowerCode).take 3) =
      "the".data.map lowerCode from rfl]
    exact noTheCI_suffix hs
  simp only [tierPrompt, String.data_append, List.map_append,
    List.append_assoc]
  refine notContains_lit_append (by decide) ?_ (by decide)
  exact notContains_var_append_last (noTheCI_contains hs) (by decide)
    (needleSuf_risky3 rfl (by decide) (by decide) hv3s)

/-- The URL initial prompt never contains the word "the "
case-insensitively, for a clean state name. -/
theorem urlInitPrompt_the_free_ci (j : Jurisdiction)
    (hs : noTheCI j.state = true) :
    listContains ("the ".data.map lowerCode)
      (((urlInitPrompt j).data).map lowerCode) = false := by
  have hv3s : (("the ".data.map lowerCode).take 3).isSuffixOf
      (j.state.data.map lowerCode) = false := by
    rw [show (("the ".data.map lowerCode).take 3) =
      "the".data.map lowerCode from rfl]
    exact noTheCI_suffix hs
  simp only [urlInitPrompt, String.data_append, List.map_append,
    List.append_assoc]
  refine notContains_lit_append (by decide) ?_ (by decide)
  exact notContains_var_append_last (noTheCI_contains hs) (by decide)
    (needleSuf_risky3 rfl (by decide) (by decide) hv3s)

/-- The URL terminal prompt never contains the word "the "
case-insensitively, for clean jurisdiction names. -/
theorem urlFinalPrompt_the_free_ci (j : Jurisdiction)
    (hs : noTheCI j.state = true)
    (hp : noTheCI j.full_county_phrase = true)
    (hty : noTheCI j.type_ = true)
    (hsub : noTheCI j.full_subdivision_phrase = true) :
    listContains ("the ".data.map lowerCode)
      (((urlFinalPrompt j).data).map lowerCode) = false := by
  have hv3s : (("the ".data.map lowerCode).take 3).isSuffixOf
      (j.state.data.map lowerCode) = false := by
    rw [show (("the ".data.map lowerCode).take 3) =
      "the".data.map lowerCode from rfl]
    exact noTheCI_suffix hs
  have hv3ty : (("the ".data.map lowerCode).take 3).isSuffixOf
      (j.type_.data.map lowerCode) = false := by
    rw [show (("the ".data.map lowerCode).take 3) =
      "the".data.map lowerCode from rfl]
    exact noTheCI_suffix hty
  rcases hc : j.county with _ | cn <;>
    rcases hd : j.subdivision_name with _ | sn
  · simp only [urlFinalPrompt, hc, hd, String.data_append,
      List.map_append, List.append_assoc]
    refine notContains_lit_append (by decide) ?_ (by decide)
    refine notContains_var_append (noTheCI_contains hs) ?_
      (needleSuf_risky3 rfl (by decide) (by decide) hv3s)
    decide
  · simp only [urlFinalPrompt, hc, hd, String.data_append,
      List.map_append, List.append_assoc]
    refine notContains_lit_append (by decide) ?_ (by decide)
    refine notContains_var_append (noTheCI_contains hs) ?_
      (needleSuf_risky3 rfl (by decide) (by decide) hv3s)
    refine notContains_lit_append (by decide) ?_ (by decide)
    refine notContains_lit_append (by decide) ?_ (by decide)
    refine notContains_lit_append (by decide) ?_ (by decide)
    refine notContains_var_append (noTheCI_contains hty) ?_
      (needleSuf_risky3 rfl (by decide) (by decide) hv3ty)
    refine notContains_lit_append (by decide) ?_ (by decide)
    exact notContains_var_append_last (noTheCI_contains hsub) (by decide)
      (needleSuf_safe (by decide) _)
  · simp only [urlFinalPrompt, hc, hd, String.data_append,
      List.map_append, List.append_assoc]
    refine notContains_lit_append (by decide) ?_ (by decide)
    refine notContains_var_append (noTheCI_contains hs) ?_
      (needleSuf_risky3 rfl (by decide) (by decide) hv3s)
    refine notContains_lit_append (by decide) ?_ (by decide)
    refine notContains_lit_append (by decide) ?_ (by decide)
    refine notContains_var_append (noTheCI_contains hp) ?_
      (needleSuf_safe (by decide) _)
    decide
  · simp only [urlFinalPrompt, hc, hd, String.data_append,
      List.map_append, List.append_assoc]
    refine notContains_lit_append (by decide) ?_ (by decide)
    refine notContains_var_append (noTheCI_contains hs) ?_
      (needleSuf_risky3 rfl (by decide) (by decide) hv3s)
    refine notContains_lit_append (by decide) ?_ (by decide)
    refine notContains_lit_append (by decide) ?_ (by decide)
    refine notContains_var_append (noTheCI_contains hp) ?_
      (needleSuf_safe (by decide) _)
    refine notContains_lit_append (by decide) ?_ (by decide)
    refine notContains_lit_append (by decide) ?_ (by decide)
    refine notContains_var_append (noTheCI_contains hty) ?_
      (needleSuf_risky3 rfl (by decide) (by decide) hv3ty)
    refine notContains_lit_append (by decide) ?_ (by decide)
    exact notContains_var_append_last (noTheCI_contains hsub) (by decide)
      (needleSuf_safe (by decide) _)

/-! ### Claim theorems for the verification graph compilers -/

/-- C4: in every compiled content verification graph, each tier strictly
above the jurisdiction's own declared tier gets an `is_<tier>` node with
exactly two outgoing edges, YES directly to the terminal node and NO to
the next tier's node (so a YES there never reaches the jurisdiction's
own tier name-check node, the terminal having no outgoing edge); at the
own tier `T`, `is_T` wires YES to `has_T_name` and NO to terminal, and
`has_T_name` flows unconditionally to terminal. -/
theorem c4_content_mismatch_short_circuit (j : Jurisdiction)
    (h : j.wfb = true) :
    tierOfType j.type_ = some (ownTier j) ∧
      (∀ i : Nat, i + 1 < (lineage j).length →
        findNode (setup_graph_correct_jurisdiction_type j)
            (isNodeId ((lineage j).getD i Tier.state)) =
          some ⟨isNodeId ((lineage j).getD i Tier.state),
            tierPrompt j ((lineage j).getD i Tier.state),
            .branch "final"
              (isNodeId ((lineage j).getD (i + 1) Tier.state))⟩) ∧
      findNode (setup_graph_correct_jurisdiction_type j)
          (isNodeId (ownTier j)) =
        some ⟨isNodeId (ownTier j), tierPrompt j (ownTier j),
          .branch (hasNameNodeId (ownTier j)) "final"⟩ ∧
      findNode (setup_graph_correct_jurisdiction_type j)
          (hasNameNodeId (ownTier j)) =
        some ⟨hasNameNodeId (ownTier j), hasTierNamePrompt j (ownTier j),
          .unconditional "final"⟩ ∧
      findNode (setup_graph_correct_jurisdiction_type j) "final" =
        some ⟨"final", contentFinalPrompt j, .terminal⟩ := by
  obtain ⟨t, s, c, sub⟩ := j
  unfold Jurisdiction.wfb at h
  rcases ht : tierOfType t with _ | tier
  · rw [ht] at h
    cases h
  rw [ht] at h
  cases tier with
  | state =>
      have hc : c = none := by
        cases c
        · rfl
        · simp at h
      have hsub : sub = none := by
        cases sub
        · rfl
        · simp at h
      subst hc
      subst hsub
      refine ⟨rfl, ?_, rfl, rfl, rfl⟩
      intro i hi
      have hlen : (lineage ⟨t, s, none, none⟩).length = 1 := rfl
      omega
  | county =>
      obtain ⟨cn, rfl⟩ : ∃ cn, c = some cn := by
        cases c
        · simp at h
        · exact ⟨_, rfl⟩
      have hsub : sub = none := by
        cases sub
        · rfl
        · simp at h
      subst hsub
      refine ⟨rfl, ?_, rfl, rfl, rfl⟩
      intro i hi
      have hlen : (lineage ⟨t, s, some cn, none⟩).length = 2 := rfl
      have : i = 0 := by omega
      subst this
      rfl
  | subdivision =>
      obtain ⟨sn, rfl⟩ : ∃ sn, sub = some sn := by
        cases sub
        · simp at h
        · exact ⟨_, rfl⟩
      cases c with
      | none =>
          refine ⟨rfl, ?_, rfl, rfl, rfl⟩
          intro i hi
          have hlen : (lineage ⟨t, s, none, some sn⟩).length = 2 := rfl
          have : i = 0 := by omega
          subst this
          rfl
      | some cn =>
          refine ⟨rfl, ?_, rfl, rfl, rfl⟩
          intro i hi
          have hlen : (lineage ⟨t, s, some cn, some sn⟩).length = 3 := rfl
          have : i = 0 ∨ i = 1 := by omega
          rcases this with rfl | rfl
          · rfl
          · rfl

/-- Witness for C4: the city-of-Golden content graph routes a YES at
`is_state` straight to the terminal node. -/
theorem c4_witness :
    (Jurisdiction.mk "city" "Colorado" (some "Jefferson")
        (some "Golden")).wfb = true ∧
      findNode
          (setup_graph_correct_jurisdiction_type
            (Jurisdiction.mk "city" "Colorado" (some "Jefferson")
              (some "Golden")))
          (isNodeId
            ((lineage
              (Jurisdiction.mk "city" "Colorado" (some "Jefferson")
                (some "Golden"))).getD 0 Tier.state)) =
        some ⟨isNodeId
            ((lineage
              (Jurisdiction.mk "city" "Colorado" (some "Jefferson")
                (some "Golden"))).getD 0 Tier.state),
          tierPrompt
            (Jurisdiction.mk "city" "Colorado" (some "Jefferson")
              (some "Golden"))
            ((lineage
              (Jurisdiction.mk "city" "Colorado" (some "Jefferson")
                (some "Golden"))).getD 0 Tier.state),
          .branch "final"
            (isNodeId
              ((lineage
                (Jurisdiction.mk "city" "Colorado" (some "Jefferson")
                  (some "Golden"))).getD 1 Tier.state))⟩ :=
  ⟨by decide,
    (c4_content_mismatch_short_circuit
      (Jurisdiction.mk "city" "Colorado" (some "Jefferson")
        (some "Golden")) (by decide)).2.1 0 (by decide)⟩

/-- C8: the URL verification graph is strictly linear — its node list is
`init`, then one unconditional `mentions_<tier>` node per tier present in
the lineage below state, then `final`; its edges are exactly the
consecutive pairs of that list; tiers absent from the lineage produce no
node.  For the "gore" jurisdiction (state and subdivision, no county
tier) the graph is exactly `{init, mentions_city, final}` with two
unconditional edges, and the terminal prompt aggregates `correct_state`
and `correct_gore` but not `correct_county`. -/
theorem c8_url_graph_linear (j : Jurisdiction) (h : j.wfb = true) :
    (graphNodeIds (setup_graph_correct_jurisdiction_from_url j) =
        ["init"] ++
          (if j.county.isSome then ["mentions_county"] else []) ++
          (if j.subdivision_name.isSome then ["mentions_city"] else []) ++
          ["final"] ∧
      graphEdges (setup_graph_correct_jurisdiction_from_url j) =
        (graphNodeIds (setup_graph_correct_jurisdiction_from_url j)).zip
          (graphNodeIds
            (setup_graph_correct_jurisdiction_from_url j)).tail ∧
      ∀ n ∈ setup_graph_correct_jurisdiction_from_url j,
        n.id ≠ "final" → ∃ nxt, n.edge = EdgeKind.unconditional nxt) ∧
      ((setup_graph_correct_jurisdiction_from_url
          (Jurisdiction.mk "gore" "Vermont" none
            (some "Buels"))).map GNode.id =
        ["init", "mentions_city", "final"] ∧
      graphEdges
          (setup_graph_correct_jurisdiction_from_url
            (Jurisdiction.mk "gore" "Vermont" none (some "Buels"))) =
        [("init", "mentions_city"), ("mentions_city", "final")] ∧
      (setup_graph_correct_jurisdiction_from_url
          (Jurisdiction.mk "gore" "Vermont" none
            (some "Buels"))).map GNode.edge =
        [EdgeKind.unconditional "mentions_city",
          EdgeKind.unconditional "final", EdgeKind.terminal] ∧
      containsSub
          (urlFinalPrompt
            (Jurisdiction.mk "gore" "Vermont" none (some "Buels")))
          "correct_state" = true ∧
      containsSub
          (urlFinalPrompt
            (Jurisdiction.mk "gore" "Vermont" none (some "Buels")))
          "correct_gore" = true ∧
      containsSub
          (urlFinalPrompt
            (Jurisdiction.mk "gore" "Vermont" none (some "Buels")))
          "correct_county" = false) := by
  refine ⟨?_, by decide, by decide, by decide, by decide, by decide,
    by decide⟩
  obtain ⟨t, s, c, sub⟩ := j
  clear h
  cases c with
  | none =>
      cases sub with
      | none =>
          refine ⟨rfl, rfl, ?_⟩
          intro n hn hne
          simp only [setup_graph_correct_jurisdiction_from_url, urlMidSpecs,
            linkChain, List.nil_append, List.cons_append, List.mem_cons,
            List.not_mem_nil, or_false] at hn
          rcases hn with rfl | rfl
          · exact ⟨"final", rfl⟩
          · exact absurd rfl hne
      | some sn =>
          refine ⟨rfl, rfl, ?_⟩
          intro n hn hne
          simp only [setup_graph_correct_jurisdiction_from_url, urlMidSpecs,
            linkChain, List.nil_append, List.cons_append, List.mem_cons,
            List.not_mem_nil, or_false] at hn
          rcases hn with rfl | rfl | rfl
          · exact ⟨"mentions_city", rfl⟩
          · exact ⟨"final", rfl⟩
          · exact absurd rfl hne
  | some cn =>
      cases sub with
      | none =>
          refine ⟨rfl, rfl, ?_⟩
          intro n hn hne
          simp only [setup_graph_correct_jurisdiction_from_url, urlMidSpecs,
            linkChain, List.nil_append, List.cons_append, List.mem_cons,
            List.not_mem_nil, or_false] at hn
          rcases hn with rfl | rfl | rfl
          · exact ⟨"mentions_county", rfl⟩
          · exact ⟨"final", rfl⟩
          · exact absurd rfl hne
      | some sn =>
          refine ⟨rfl, rfl, ?_⟩
          intro n hn hne
          simp only [setup_graph_correct_jurisdiction_from_url, urlMidSpecs,
            linkChain, List.nil_append, List.cons_append, List.mem_cons,
            List.not_mem_nil, or_false] at hn
          rcases hn with rfl | rfl | rfl | rfl
          · exact ⟨"mentions_county", rfl⟩
          · exact ⟨"mentions_city", rfl⟩
          · exact ⟨"final", rfl⟩
          · exact absurd rfl hne

/-- Witness for C8 at the spec's concrete gore jurisdiction. -/
theorem c8_witness :
    (Jurisdiction.mk "gore" "Vermont" none (some "Buels")).wfb = true ∧
      graphNodeIds
          (setup_graph_correct_jurisdiction_from_url
            (Jurisdiction.mk "gore" "Vermont" none (some "Buels"))) =
        ["init"] ++ [] ++ ["mentions_city"] ++ ["final"] :=
  ⟨by decide, by
    have hg := (c8_url_graph_linear
      (Jurisdiction.mk "gore" "Vermont" none (some "Buels"))
      (by decide)).1.1
    simpa using hg⟩

/-- C7: every prompt of both graph compilers obeys the phrasing rule.
For every jurisdiction, the state-tier prompts embed the state name
immediately followed by "state", county-tier prompts embed the bare
county phrase, and the subdivision branching prompt embeds the
subdivision phrase with a definite article; the forbidden phrasings are
universally absent: for every jurisdiction with clean names (no "the"
word inside or at the end of a name), no state-tier prompt contains
"the state of" case-insensitively and no county-relevant prompt
contains the county phrase preceded by "the"; the full checklist also
holds on the test-suite jurisdictions. -/
theorem c7_prompt_phrasing :
    (∀ j : Jurisdiction,
      containsSub (tierPrompt j .state) (j.state ++ " state") = true ∧
      containsSub (urlInitPrompt j) (j.state ++ " state") = true ∧
      containsSub (urlFinalPrompt j) (j.state ++ " state") = true ∧
      containsSub (urlFinalPrompt j) "correct_state" = true ∧
      containsSub (tierPrompt j .county) j.full_county_phrase = true ∧
      containsSub (urlCountyPrompt j) j.full_county_phrase = true ∧
      containsSub (tierPrompt j .subdivision)
        ("the " ++ j.full_subdivision_phrase) = true ∧
      (j.county.isSome = true →
        containsSub (urlFinalPrompt j) j.full_county_phrase = true)) ∧
      testJurisdictions.all c7ok = true ∧
      (∀ j : Jurisdiction, noTheCI j.state = true →
        noTheCI j.full_county_phrase = true → noTheCI j.type_ = true →
        noTheCI j.full_subdivision_phrase = true →
        containsSubCI (tierPrompt j .state) "the state of" = false ∧
        containsSubCI (urlInitPrompt j) "the state of" = false ∧
        containsSubCI (urlFinalPrompt j) "the state of" = false) ∧
      (∀ j : Jurisdiction, noThe j.state = true →
        noThe j.full_county_phrase = true → noThe j.type_ = true →
        noThe j.full_subdivision_phrase = true →
        containsSub (tierPrompt j .county)
          ("the " ++ j.full_county_phrase) = false ∧
        containsSub (urlCountyPrompt j)
          ("the " ++ j.full_county_phrase) = false ∧
        containsSub (urlFinalPrompt j)
          ("the " ++ j.full_county_phrase) = false) := by
  refine ⟨?_, by decide,
    fun j hs hp hty hsub =>
      ⟨ci_state_of_not_contained (tierPrompt_state_the_free_ci j hs),
        ci_state_of_not_contained (urlInitPrompt_the_free_ci j hs),
        ci_state_of_not_contained
          (urlFinalPrompt_the_free_ci j hs hp hty hsub)⟩,
    fun j hs hp hty hsub =>
      ⟨cs_the_phrase_not_contained _ (tierPrompt_county_the_free j hp),
        cs_the_phrase_not_contained _ (urlCountyPrompt_the_free j hp),
        cs_the_phrase_not_contained _
          (urlFinalPrompt_the_free j hs hp hty hsub)⟩⟩
  intro j
  refine ⟨?_, ?_, ?_, ?_, ?_, ?_, ?_, ?_⟩
  · apply containsSub_of_eq "Does this text apply to "
      (j.state ++ " state")
      " as a whole, rather than a smaller jurisdiction?"
    show "Does this text apply to " ++ j.state ++
        " state as a whole, rather than a smaller jurisdiction?" = _
    rw [show (" state as a whole, rather than a smaller jurisdiction?" :
      String) =
      " state" ++ " as a whole, rather than a smaller jurisdiction?" from
      rfl]
    simp only [String.append_assoc]
  · apply containsSub_of_eq
      "This URL should belong to a government website for "
      (j.state ++ " state") "."
    show "This URL should belong to a government website for " ++
        j.state ++ " state." = _
    rw [show (" state." : String) = " state" ++ "." from rfl]
    simp only [String.append_assoc]
  · apply containsSub_of_eq
      "Return JSON. Set correct_state if this URL is for "
      (j.state ++ " state")
      ("." ++
        (match j.county with
         | some _ =>
             " Set correct_county if this URL mentions " ++
               j.full_county_phrase ++ "."
         | none => "") ++
        (match j.subdivision_name with
         | some _ =>
             " Set correct_" ++ j.type_ ++ " if this URL mentions " ++
               j.full_subdivision_phrase ++ "."
         | none => ""))
    show "Return JSON. Set correct_state if this URL is for " ++
        j.state ++ " state." ++ _ ++ _ = _
    rw [show (" state." : String) = " state" ++ "." from rfl]
    simp only [String.append_assoc]
  · apply containsSub_of_eq "Return JSON. Set " "correct_state"
      (" if this URL is for " ++ j.state ++ " state." ++
        (match j.county with
         | some _ =>
             " Set correct_county if this URL mentions " ++
               j.full_county_phrase ++ "."
         | none => "") ++
        (match j.subdivision_name with
         | some _ =>
             " Set correct_" ++ j.type_ ++ " if this URL mentions " ++
               j.full_subdivision_phrase ++ "."
         | none => ""))
    show "Return JSON. Set correct_state if this URL is for " ++
        j.state ++ " state." ++ _ ++ _ = _
    rw [show ("Return JSON. Set correct_state if this URL is for " :
      String) =
      "Return JSON. Set " ++ "correct_state" ++ " if this URL is for "
      from rfl]
    simp only [String.append_assoc]
  · exact containsSub_of_eq "Is this text specifically about "
      j.full_county_phrase ", rather than some other jurisdiction?" rfl
  · exact containsSub_of_eq "Does this URL mention " j.full_county_phrase
      "?" rfl
  · apply containsSub_of_eq "Does the text apply specifically to "
      ("the " ++ j.full_subdivision_phrase)
      ", rather than some other jurisdiction?"
    show "Does the text apply specifically to the " ++
        j.full_subdivision_phrase ++
        ", rather than some other jurisdiction?" = _
    rw [show ("Does the text apply specifically to the " : String) =
      "Does the text apply specifically to " ++ "the " from rfl]
    simp only [String.append_assoc]
  · intro h
    obtain ⟨cn, hcn⟩ := Option.isSome_iff_exists.mp h
    apply containsSub_of_eq
      ("Return JSON. Set correct_state if this URL is for " ++ j.state ++
        " state." ++ " Set correct_county if this URL mentions ")
      j.full_county_phrase
      ("." ++
        (match j.subdivision_name with
         | some _ =>
             " Set correct_" ++ j.type_ ++ " if this URL mentions " ++
               j.full_subdivision_phrase ++ "."
         | none => ""))
    simp only [urlFinalPrompt, hcn]
    simp only [String.append_assoc]

/-- Witness for C7: at the city-of-Golden jurisdiction, the URL terminal
prompt embeds the bare county phrase and never that phrase preceded by
"the". -/
theorem c7_witness :
    ((Jurisdiction.mk "city" "Colorado" (some "Jefferson")
        (some "Golden")).county.isSome = true ∧
      noThe (Jurisdiction.mk "city" "Colorado" (some "Jefferson")
        (some "Golden")).state = true) ∧
      containsSub
          (urlFinalPrompt
            (Jurisdiction.mk "city" "Colorado" (some "Jefferson")
              (some "Golden")))
          (Jurisdiction.mk "city" "Colorado" (some "Jefferson")
            (some "Golden")).full_county_phrase = true ∧
      containsSub
          (urlFinalPrompt
            (Jurisdiction.mk "city" "Colorado" (some "Jefferson")
              (some "Golden")))
          ("the " ++
            (Jurisdiction.mk "city" "Colorado" (some "Jefferson")
              (some "Golden")).full_county_phrase) = false :=
  ⟨⟨by decide, by decide⟩,
    (c7_prompt_phrasing.1
      (Jurisdiction.mk "city" "Colorado" (some "Jefferson")
        (some "Golden"))).2.2.2.2.2.2.2 (by decide),
    ((c7_prompt_phrasing.2.2.2
      (Jurisdiction.mk "city" "Colorado" (some "Jefferson")
        (some "Golden"))) (by decide) (by decide) (by decide)
      (by decide)).2.2⟩

theorem lookup_append_single (st : List (Nat × String)) (a : Nat)
    (b : String) (j : Nat) :
    (st ++ [(a, b)]).lookup j =
      match st.lookup j with
      | some v => some v
      | none => if j = a then some b else none := by
  induction st with
  | nil =>
      simp only [List.nil_append, List.lookup_nil, List.lookup_cons]
      by_cases h : j = a
      · subst h
        simp
      · have hb : (j == a) = false := beq_eq_false_iff_ne.mpr h
        simp [hb, h]
  | cons kv st ih =>
      obtain ⟨k, v⟩ := kv
      simp only [List.cons_append, List.lookup_cons]
      cases hjk : (j == k) with
      | true => rfl
      | false => exact ih

theorem store_fold_lookup (num_to_recall : Nat) (text_chunks : List String)
    (chunk_ind : Nat) (ks : List Nat) :
    ∀ (store : List (Nat × String)) (j : Nat),
      (ks.foldl (storeStep num_to_recall text_chunks chunk_ind)
        store).lookup j =
        match store.lookup j with
        | some v => some v
        | none =>
            if ∃ k ∈ ks,
              grabIndex num_to_recall text_chunks.length chunk_ind k =
                some j
            then some (text_chunks.getD j "")
            else none := by
  induction ks with
  | nil =>
      intro store j
      simp only [List.foldl_nil, List.not_mem_nil, false_and,
        exists_false, if_false]
      cases store.lookup j <;> rfl
  | cons k ks ih =>
      intro store j
      simp only [List.foldl_cons]
      cases hg : grabIndex num_to_recall text_chunks.length chunk_ind k with
      | none =>
          have hstep : storeStep num_to_recall text_chunks chunk_ind
              store k = store := by
            simp only [storeStep, hg]
          rw [hstep, ih store j]
          have hke : (∃ x ∈ ks,
              grabIndex num_to_recall text_chunks.length chunk_ind x =
                some j) ↔
              (∃ x ∈ k :: ks,
                grabIndex num_to_recall text_chunks.length chunk_ind x =
                  some j) := by
            constructor
            · rintro ⟨x, hx, he⟩
              exact ⟨x, List.mem_cons_of_mem k hx, he⟩
            · rintro ⟨x, hx, he⟩
              rcases List.mem_cons.mp hx with rfl | hx'
              · rw [hg] at he
                cases he
              · exact ⟨x, hx', he⟩
          rw [if_congr hke rfl rfl]
      | some jk =>
          cases hl : store.lookup jk with
          | some v =>
              have hstep : storeStep num_to_recall text_chunks chunk_ind
                  store k = store := by
                simp only [storeStep, hg, hl]
              rw [hstep, ih store j]
              by_cases hjjk : j = jk
              · subst hjjk
                rw [hl]
              · have hke : (∃ x ∈ ks,
                    grabIndex num_to_recall text_chunks.length chunk_ind
                      x = some j) ↔
                    (∃ x ∈ k :: ks,
                      grabIndex num_to_recall text_chunks.length chunk_ind
                        x = some j) := by
                  constructor
                  · rintro ⟨x, hx, he⟩
                    exact ⟨x, List.mem_cons_of_mem k hx, he⟩
                  · rintro ⟨x, hx, he⟩
                    rcases List.mem_cons.mp hx with rfl | hx'
                    · rw [hg] at he
                      cases he
                      exact absurd rfl hjjk
                    · exact ⟨x, hx', he⟩
                rw [if_congr hke rfl rfl]
          | none =>
              have hstep : storeStep num_to_recall text_chunks chunk_ind
                  store k =
                  store ++ [(jk, text_chunks.getD jk "")] := by
                simp only [storeStep, hg, hl]
              rw [hstep, ih _ j, lookup_append_single]
              by_cases hjjk : j = jk
              · subst hjjk
                rw [hl]
                simp only [if_pos rfl]
                have hex : ∃ x ∈ k :: ks,
                    grabIndex num_to_recall text_chunks.length chunk_ind
                      x = some j :=
                  ⟨k, List.mem_cons_self k ks, hg⟩
                rw [if_pos hex]
                simp
              · have hb : ¬(j = jk) := hjjk
                simp only [if_neg hb]
                cases hlj : store.lookup j with
                | some v => rfl
                | none =>
                    have hke : (∃ x ∈ ks,
                        grabIndex num_to_recall text_chunks.length
                          chunk_ind x = some j) ↔
                        (∃ x ∈ k :: ks,
                          grabIndex num_to_recall text_chunks.length
                            chunk_ind x = some j) := by
                      constructor
                      · rintro ⟨x, hx, he⟩
                        exact ⟨x, List.mem_cons_of_mem k hx, he⟩
                      · rintro ⟨x, hx, he⟩
                        rcases List.mem_cons.mp hx with rfl | hx'
                        · rw [hg] at he
                          cases he
                          exact absurd rfl hjjk
                        · exact ⟨x, hx', he⟩
                    rw [if_congr hke rfl rfl]

/-- The loop of `_store_chunk` reaches exactly the in-bounds indices in
`[chunk_ind + 1 - num_to_recall, chunk_ind + 1]`. -/
theorem grabIndex_range_iff (num_to_recall len chunk_ind j : Nat) :
    (∃ k ∈ List.range (num_to_recall + 1),
      grabIndex num_to_recall len chunk_ind k = some j) ↔
      ((chunk_ind : Int) + 1 - num_to_recall ≤ (j : Int) ∧
        (j : Int) ≤ (chunk_ind : Int) + 1 ∧ j < len) := by
  constructor
  · rintro ⟨k, hk, he⟩
    rw [List.mem_range] at hk
    unfold grabIndex at he
    split at he
    · cases he
    · next hcond =>
        rw [Bool.or_eq_true, not_or] at hcond
        obtain ⟨h1, h2⟩ := hcond
        simp only [decide_eq_true_eq] at h1 h2
        injection he with he
        omega
  · rintro ⟨h1, h2, h3⟩
    refine ⟨((j : Int) - ((chunk_ind : Int) + 1 - num_to_recall)).toNat,
      ?_, ?_⟩
    · rw [List.mem_range]
      omega
    · unfold grabIndex
      have hne : ¬((chunk_ind : Int) +
          (1 - (num_to_recall : Int) +
            ((j : Int) - ((chunk_ind : Int) + 1 - num_to_recall)).toNat) <
            0 ||
          (len : Int) ≤ (chunk_ind : Int) +
            (1 - (num_to_recall : Int) +
              ((j : Int) -
                ((chunk_ind : Int) + 1 - num_to_recall)).toNat)) := by
        rw [Bool.or_eq_true, not_or]
        constructor <;> simp only [decide_eq_true_eq] <;> omega
      rw [if_neg hne]
      congr 1
      omega

/-! ### Claim theorems for the water-rights collection helpers -/

/-- C9: the default heuristic pre-filter returns true for every input:
`WaterRightsHeuristic.check` ignores all positional and keyword
arguments, so scanning with it is the same as scanning with the
always-true heuristic (no chunk is ever skipped). -/
theorem c9_default_heuristic_always_true :
    (∀ (self : WaterRightsHeuristic) (args : List String)
      (kwargs : List (String × String)), self.check args kwargs = true) ∧
      ∀ (text_chunks : List String) (num_to_recall : Nat) (key : String)
        (judge : String → String → Bool) (min_chunks_to_process : Nat),
        parse_by_chunks text_chunks num_to_recall
            (fun chunk =>
              (WaterRightsHeuristic.mk).check [chunk]
                ([] : List (String × String)))
            key judge min_chunks_to_process =
          parse_by_chunks text_chunks num_to_recall (fun _ => true) key
            judge min_chunks_to_process :=
  ⟨fun _ _ _ => rfl, fun _ _ _ _ _ => rfl⟩

/-- C10: when `check_chunk` finds a chunk relevant, `_store_chunk` stores
the chunk and every in-bounds neighbor at offsets `1 - num_to_recall`
through `+1` (clamping silently at the sequence boundaries) without
overwriting an already-stored index; `relevant_text` is the stored
chunks merged in ascending index order, and the empty string when
nothing was stored. -/
theorem c10_store_chunk_and_relevant_text :
    (∀ (num_to_recall : Nat) (text_chunks : List String)
      (chunk_ind : Nat) (store : List (Nat × String)) (j : Nat),
      (_store_chunk num_to_recall text_chunks chunk_ind store).lookup j =
        match store.lookup j with
        | some v => some v
        | none =>
            if (chunk_ind : Int) + 1 - num_to_recall ≤ (j : Int) ∧
                (j : Int) ≤ (chunk_ind : Int) + 1 ∧ j < text_chunks.length
            then some (text_chunks.getD j "")
            else none) ∧
      (∀ merge : List String → String, relevant_text merge [] = "") ∧
      (∀ (merge : List String → String)
        (store : List (Nat × String)), store ≠ [] →
        relevant_text merge store =
            merge ((List.insertionSort (· ≤ ·)
              (store.map Prod.fst)).map
                (fun ind => (store.lookup ind).getD "")) ∧
          List.Sorted (· ≤ ·)
            (List.insertionSort (· ≤ ·) (store.map Prod.fst)) ∧
          (List.insertionSort (· ≤ ·) (store.map Prod.fst)).Perm
            (store.map Prod.fst)) ∧
      ∀ (text_chunks : List String) (num_to_recall : Nat) (memory : Mem)
        (judge : String → String → Bool) (ind : Nat)
        (store : List (Nat × String)),
        (check_chunk text_chunks num_to_recall memory judge ind
            store).2.2 =
          if (check_chunk text_chunks num_to_recall memory judge ind
              store).1
          then _store_chunk num_to_recall text_chunks ind store
          else store := by
  refine ⟨?_, fun _ => rfl, ?_, fun _ _ _ _ _ _ => rfl⟩
  · intro num_to_recall text_chunks chunk_ind store j
    unfold _store_chunk
    rw [store_fold_lookup]
    rw [if_congr (grabIndex_range_iff num_to_recall text_chunks.length
      chunk_ind j) rfl rfl]
  · intro merge store hne
    refine ⟨?_, List.sorted_insertionSort _ _,
      List.perm_insertionSort _ _⟩
    unfold relevant_text
    rw [if_neg (by simpa using hne)]

/-- Witness for C10: a store built out of order is merged in ascending
index order. -/
theorem c10_witness :
    (([(2, "b"), (0, "a")] : List (Nat × String)) ≠ []) ∧
      relevant_text String.join [(2, "b"), (0, "a")] =
        String.join ((List.insertionSort (· ≤ ·)
          (([(2, "b"), (0, "a")] : List (Nat × String)).map
            Prod.fst)).map
          (fun ind =>
            (([(2, "b"), (0, "a")] : List (Nat × String)).lookup
              ind).getD "")) :=
  ⟨by decide,
    (c10_store_chunk_and_relevant_text.2.2.1 String.join
      [(2, "b"), (0, "a")] (by decide)).1⟩

end Compass

